import Mathlib

/- =============================================================================
   Verification development for the ec-cli content pipeline.

   The Rust sources are shallowly embedded over byte lists: a Rust `String` or
   `&str` is modelled as its UTF-8 byte sequence (`List Nat`, each byte < 256),
   `Vec<u8>` as `List Nat`, and fallible operations return `Except`/`Option`.
   Embedded modules:
     - src/models.rs   : `QuestKeys`, `QuestKeys::get_key`
     - src/crypto.rs   : `decrypt_aes_cbc` (hex decoding, AES-128/192/256-CBC
                         block decryption with PKCS#7 unpadding, UTF-8 check)
     - src/client.rs   : the assembly loop of `fetch_description` and the
                         legacy branch of `fetch_input`
     - src/main.rs     : the cache-staleness decision of `handle_read`
     - src/display.rs  : `extract_expected_answer`
   ============================================================================= -/

namespace EcCli

/-! ## Basic byte-list helpers -/

/-- `leadsWith n h` is true when byte list `h` starts with byte list `n`
(the model of Rust `str::starts_with` on byte sequences). -/
def leadsWith : List Nat → List Nat → Bool
  | [], _ => true
  | _ :: _, [] => false
  | a :: n, b :: h => a == b && leadsWith n h

/-- `occursIn n h` holds when `n` appears as a contiguous subsequence of `h`
(the model of Rust `str::contains` on byte sequences). -/
def occursIn (n h : List Nat) : Prop := ∃ u v, h = u ++ n ++ v

/-- Scanning loop behind `countMatches`: at each position, a match of the
(nonempty) needle advances the scan past the matched bytes, otherwise the
scan advances one byte.  The first argument is fuel, always supplied as at
least the haystack length, making the recursion structural and
kernel-reducible. -/
def countMatchesGo : Nat → List Nat → List Nat → Nat
  | 0, _, _ => 0
  | _ + 1, _, [] => 0
  | fuel + 1, n, b :: t =>
    if leadsWith n (b :: t) then 1 + countMatchesGo fuel n ((b :: t).drop n.length)
    else countMatchesGo fuel n t

/-- Number of non-overlapping occurrences of `n` in `h`, scanning left to
right and advancing past each match: the model of Rust
`str::matches(n).count()` (which for an empty pattern reports one match per
char boundary). -/
def countMatches (n h : List Nat) : Nat :=
  if n = [] then h.length + 1 else countMatchesGo h.length n h

/-- Executable containment check: `containsSeq n h` is true when `n` occurs
as a contiguous byte subsequence of `h` (the model of Rust `str::contains`,
and the decision procedure for `occursIn`). -/
def containsSeq (n : List Nat) : List Nat → Bool
  | [] => leadsWith n []
  | b :: t => leadsWith n (b :: t) || containsSeq n t

/-! ## src/models.rs -/

/-- Quest keys as deserialized from the key-lookup endpoint: `key1` is
required, `key2`/`key3` default to absent (src/models.rs `QuestKeys`). -/
structure QuestKeys where
  key1 : List Nat
  key2 : Option (List Nat)
  key3 : Option (List Nat)

/-- Embedding of `QuestKeys::get_key` (src/models.rs lines 43-52): parts 2
and 3 require the corresponding optional key, every other part number
(including 1) yields `key1`. -/
def QuestKeys.get_key (keys : QuestKeys) (part : Int) : Except String (List Nat) :=
  if part = 1 then .ok keys.key1
  else if part = 2 then
    match keys.key2 with
    | some k => .ok k
    | none => .error "Part 2 key not available yet"
  else if part = 3 then
    match keys.key3 with
    | some k => .ok k
    | none => .error "Part 3 key not available yet"
  else .ok keys.key1

/-! ## src/main.rs: cache staleness decision in `handle_read` -/

/-- Byte sequence of the ASCII string `" PART 2 "`. -/
def part2Marker : List Nat := [32, 80, 65, 82, 84, 32, 50, 32]

/-- Byte sequence of the ASCII string `" PART 3 "`. -/
def part3Marker : List Nat := [32, 80, 65, 82, 84, 32, 51, 32]

/-- `available_parts` of src/main.rs line 186:
`1 + keys.key2.is_some() + keys.key3.is_some()`. -/
def available_parts (keys : QuestKeys) : Nat :=
  1 + (if keys.key2.isSome then 1 else 0) + (if keys.key3.isSome then 1 else 0)

/-- `cached_parts` of src/main.rs line 190:
`1 + cached.matches(" PART 2 ").count() + cached.matches(" PART 3 ").count()`. -/
def cached_parts (cached : List Nat) : Nat :=
  1 + countMatches part2Marker cached + countMatches part3Marker cached

/-- The staleness decision of `handle_read` (src/main.rs line 192): refetch
exactly when `cached_parts < available_parts`. -/
def is_stale (cached : List Nat) (keys : QuestKeys) : Bool :=
  cached_parts cached < available_parts keys

/-- Part count attributed to the cached document by the SPEC'S wording of the
staleness rule ("a separator marker is present", a 0/1 signal per part):
`1 + (part-2 marker present) + (part-3 marker present)`.  This is the claim's
formula, kept separate from the source-derived `cached_parts` so the two can
be compared. -/
def specCachedPartCount (cached : List Nat) : Nat :=
  1 + (if countMatches part2Marker cached ≠ 0 then 1 else 0)
    + (if countMatches part3Marker cached ≠ 0 then 1 else 0)

/-! ## src/crypto.rs: AES-CBC decryption

The `aes` and `cbc` crates used by `decrypt_aes_cbc` are modelled by a direct
FIPS-197 implementation over byte lists (state bytes in block order, four
consecutive bytes per column). -/

/-- The AES S-box (FIPS-197 figure 7), as a 256-entry lookup table. -/
def sboxList : List Nat := [
  99, 124, 119, 123, 242, 107, 111, 197, 48, 1, 103, 43, 254, 215, 171, 118,
  202, 130, 201, 125, 250, 89, 71, 240, 173, 212, 162, 175, 156, 164, 114, 192,
  183, 253, 147, 38, 54, 63, 247, 204, 52, 165, 229, 241, 113, 216, 49, 21,
  4, 199, 35, 195, 24, 150, 5, 154, 7, 18, 128, 226, 235, 39, 178, 117,
  9, 131, 44, 26, 27, 110, 90, 160, 82, 59, 214, 179, 41, 227, 47, 132,
  83, 209, 0, 237, 32, 252, 177, 91, 106, 203, 190, 57, 74, 76, 88, 207,
  208, 239, 170, 251, 67, 77, 51, 133, 69, 249, 2, 127, 80, 60, 159, 168,
  81, 163, 64, 143, 146, 157, 56, 245, 188, 182, 218, 33, 16, 255, 243, 210,
  205, 12, 19, 236, 95, 151, 68, 23, 196, 167, 126, 61, 100, 93, 25, 115,
  96, 129, 79, 220, 34, 42, 144, 136, 70, 238, 184, 20, 222, 94, 11, 219,
  224, 50, 58, 10, 73, 6, 36, 92, 194, 211, 172, 98, 145, 149, 228, 121,
  231, 200, 55, 109, 141, 213, 78, 169, 108, 86, 244, 234, 101, 122, 174, 8,
  186, 120, 37, 46, 28, 166, 180, 198, 232, 221, 116, 31, 75, 189, 139, 138,
  112, 62, 181, 102, 72, 3, 246, 14, 97, 53, 87, 185, 134, 193, 29, 158,
  225, 248, 152, 17, 105, 217, 142, 148, 155, 30, 135, 233, 206, 85, 40, 223,
  140, 161, 137, 13, 191, 230, 66, 104, 65, 153, 45, 15, 176, 84, 187, 22]

/-- The inverse AES S-box (FIPS-197 figure 14). -/
def invSboxList : List Nat := [
  82, 9, 106, 213, 48, 54, 165, 56, 191, 64, 163, 158, 129, 243, 215, 251,
  124, 227, 57, 130, 155, 47, 255, 135, 52, 142, 67, 68, 196, 222, 233, 203,
  84, 123, 148, 50, 166, 194, 35, 61, 238, 76, 149, 11, 66, 250, 195, 78,
  8, 46, 161, 102, 40, 217, 36, 178, 118, 91, 162, 73, 109, 139, 209, 37,
  114, 248, 246, 100, 134, 104, 152, 22, 212, 164, 92, 204, 93, 101, 182, 146,
  108, 112, 72, 80, 253, 237, 185, 218, 94, 21, 70, 87, 167, 141, 157, 132,
  144, 216, 171, 0, 140, 188, 211, 10, 247, 228, 88, 5, 184, 179, 69, 6,
  208, 44, 30, 143, 202, 63, 15, 2, 193, 175, 189, 3, 1, 19, 138, 107,
  58, 145, 17, 65, 79, 103, 220, 234, 151, 242, 207, 206, 240, 180, 230, 115,
  150, 172, 116, 34, 231, 173, 53, 133, 226, 249, 55, 232, 28, 117, 223, 110,
  71, 241, 26, 113, 29, 41, 197, 137, 111, 183, 98, 14, 170, 24, 190, 27,
  252, 86, 62, 75, 198, 210, 121, 32, 154, 219, 192, 254, 120, 205, 90, 244,
  31, 221, 168, 51, 136, 7, 199, 49, 177, 18, 16, 89, 39, 128, 236, 95,
  96, 81, 127, 169, 25, 181, 74, 13, 45, 229, 122, 159, 147, 201, 156, 239,
  160, 224, 59, 77, 174, 42, 245, 176, 200, 235, 187, 60, 131, 83, 153, 97,
  23, 43, 4, 126, 186, 119, 214, 38, 225, 105, 20, 99, 85, 33, 12, 125]

/-- S-box lookup. -/
def sb (b : Nat) : Nat := sboxList.getD b 0

/-- Inverse S-box lookup. -/
def isb (b : Nat) : Nat := invSboxList.getD b 0

/-- Multiplication by x in GF(2^8) mod x^8+x^4+x^3+x+1: shift left one bit,
drop bit 8, and xor in 0x1b when bit 7 was set. -/
def xtime (a : Nat) : Nat := 2 * (a % 128) ^^^ (if a.testBit 7 then 27 else 0)

/-- GF(2^8) multiplication by 3. -/
def mul3 (a : Nat) : Nat := xtime a ^^^ a

/-- GF(2^8) multiplication by 4 (xtime twice). -/
def xt2 (a : Nat) : Nat := xtime (xtime a)

/-- GF(2^8) multiplication by 8 (xtime three times). -/
def xt3 (a : Nat) : Nat := xtime (xt2 a)

/-- GF(2^8) multiplication by 9 = 8 + 1. -/
def mul9 (a : Nat) : Nat := xt3 a ^^^ a

/-- GF(2^8) multiplication by 11 = 8 + 2 + 1. -/
def mul11 (a : Nat) : Nat := xt3 a ^^^ xtime a ^^^ a

/-- GF(2^8) multiplication by 13 = 8 + 4 + 1. -/
def mul13 (a : Nat) : Nat := xt3 a ^^^ xt2 a ^^^ a

/-- GF(2^8) multiplication by 14 = 8 + 4 + 2. -/
def mul14 (a : Nat) : Nat := xt3 a ^^^ xt2 a ^^^ xtime a

/-- Fuel-driven chunking loop (fuel is always supplied as the list length,
keeping the recursion structural and kernel-reducible). -/
def chunksGo : Nat → Nat → List Nat → List (List Nat)
  | 0, _, _ => []
  | _ + 1, _, [] => []
  | fuel + 1, n, b :: t => (b :: t).take n :: chunksGo fuel n ((b :: t).drop n)

/-- Split a byte list into consecutive chunks of `n` bytes (`n > 0` at every
use site; the final chunk is shorter when `n` does not divide the length). -/
def chunks (n : Nat) (l : List Nat) : List (List Nat) := chunksGo l.length n l

/-- SubBytes: apply the S-box to every state byte. -/
def subBytes (s : List Nat) : List Nat := s.map sb

/-- InvSubBytes. -/
def invSubBytes (s : List Nat) : List Nat := s.map isb

/-- Source positions of the ShiftRows permutation on the 16-byte state
(state byte `r + 4*c` holds row `r`, column `c`; row `r` rotates left by
`r`). -/
def shiftIdx : List Nat := [0, 5, 10, 15, 4, 9, 14, 3, 8, 13, 2, 7, 12, 1, 6, 11]

/-- Source positions of the InvShiftRows permutation. -/
def invShiftIdx : List Nat := [0, 13, 10, 7, 4, 1, 14, 11, 8, 5, 2, 15, 12, 9, 6, 3]

/-- ShiftRows. -/
def shiftRows (s : List Nat) : List Nat := shiftIdx.map (fun i => s.getD i 0)

/-- InvShiftRows. -/
def invShiftRows (s : List Nat) : List Nat := invShiftIdx.map (fun i => s.getD i 0)

/-- MixColumns on a single 4-byte column. -/
def mixColumn : List Nat → List Nat
  | [a, b, c, d] =>
    [xtime a ^^^ mul3 b ^^^ c ^^^ d,
     a ^^^ xtime b ^^^ mul3 c ^^^ d,
     a ^^^ b ^^^ xtime c ^^^ mul3 d,
     mul3 a ^^^ b ^^^ c ^^^ xtime d]
  | l => l

/-- InvMixColumns on a single 4-byte column. -/
def invMixColumn : List Nat → List Nat
  | [a, b, c, d] =>
    [mul14 a ^^^ mul11 b ^^^ mul13 c ^^^ mul9 d,
     mul9 a ^^^ mul14 b ^^^ mul11 c ^^^ mul13 d,
     mul13 a ^^^ mul9 b ^^^ mul14 c ^^^ mul11 d,
     mul11 a ^^^ mul13 b ^^^ mul9 c ^^^ mul14 d]
  | l => l

/-- MixColumns on the full state. -/
def mixColumns (s : List Nat) : List Nat := ((chunks 4 s).map mixColumn).flatten

/-- InvMixColumns on the full state. -/
def invMixColumns (s : List Nat) : List Nat := ((chunks 4 s).map invMixColumn).flatten

/-- AddRoundKey: xor the round key into the state. -/
def ark (k s : List Nat) : List Nat := List.zipWith (fun a b => a ^^^ b) s k

/-- The AES round constants (FIPS-197 section 5.2). -/
def rconList : List Nat := [1, 2, 4, 8, 16, 32, 64, 128, 27, 54]

/-- `Rcon[i]` as the first byte of the round-constant word. -/
def rcon (i : Nat) : Nat := rconList.getD (i - 1) 0

/-- Apply the S-box to each byte of a 4-byte word. -/
def subWord (w : List Nat) : List Nat := w.map sb

/-- Rotate a 4-byte word left by one byte. -/
def rotWord : List Nat → List Nat
  | [a, b, c, d] => [b, c, d, a]
  | l => l

/-- One step of the FIPS-197 key expansion: derive word `i` from word
`i - 1` (`prev`) and word `i - Nk` (`old`). -/
def nextWord (nk i : Nat) (prev old : List Nat) : List Nat :=
  let temp :=
    if i % nk = 0 then List.zipWith (fun a b => a ^^^ b) (subWord (rotWord prev)) [rcon (i / nk), 0, 0, 0]
    else if 6 < nk ∧ i % nk = 4 then subWord prev
    else prev
  List.zipWith (fun a b => a ^^^ b) old temp

/-- Iterate `nextWord`, appending `count` further words to `ws`. -/
def expandWords (nk : Nat) (ws : List (List Nat)) : Nat → List (List Nat)
  | 0 => ws
  | count + 1 =>
    expandWords nk
      (ws ++ [nextWord nk ws.length (ws.getLastD []) (ws.getD (ws.length - nk) [])]) count

/-- FIPS-197 key expansion: the `Nr + 1` sixteen-byte round keys derived from
a 16-, 24-, or 32-byte key (`Nk = key length / 4`, `Nr = Nk + 6`). -/
def keyExpansion (key : List Nat) : List (List Nat) :=
  let nk := key.length / 4
  let nr := nk + 6
  let ws := expandWords nk (chunks 4 key) (4 * (nr + 1) - nk)
  (chunks4w ws).map List.flatten
where
  /-- Group a word list into round keys of four words each. -/
  chunks4w : List (List Nat) → List (List (List Nat))
  | [] => []
  | a :: b :: c :: d :: rest => [a, b, c, d] :: chunks4w rest
  | l => [l]

/-- Encryption rounds after the initial AddRoundKey: one full round
(SubBytes, ShiftRows, MixColumns, AddRoundKey) per key except the last,
which omits MixColumns (FIPS-197 section 5.1). -/
def encR : List (List Nat) → List Nat → List Nat
  | [], s => s
  | [k], s => ark k (shiftRows (subBytes s))
  | k :: k' :: rest, s => encR (k' :: rest) (ark k (mixColumns (shiftRows (subBytes s))))

/-- The AES block cipher, given the expanded round keys. -/
def cipher : List (List Nat) → List Nat → List Nat
  | [], b => b
  | k :: rest, b => encR rest (ark k b)

/-- Decryption rounds: the exact inverses of `encR`'s steps, applied in
reverse order (FIPS-197 section 5.3, InvCipher). -/
def decR : List (List Nat) → List Nat → List Nat
  | [], t => t
  | [k], t => invSubBytes (invShiftRows (ark k t))
  | k :: k' :: rest, t => invSubBytes (invShiftRows (invMixColumns (ark k (decR (k' :: rest) t))))

/-- The AES inverse block cipher, given the expanded round keys. -/
def invCipher : List (List Nat) → List Nat → List Nat
  | [], t => t
  | k :: rest, t => ark k (decR rest t)

/-- CBC decryption of a block sequence: plaintext block `i` is the block
decryption of ciphertext block `i`, xored with ciphertext block `i - 1`
(the IV for the first block). -/
def cbcDecBlocks (rks : List (List Nat)) (prev : List Nat) : List (List Nat) → List (List Nat)
  | [] => []
  | c :: cs => ark prev (invCipher rks c) :: cbcDecBlocks rks c cs

/-- PKCS#7 unpadding as performed by the `block-padding` crate on the final
block: the last byte `n` must lie in 1..16 and the last `n` bytes must all
equal `n`; those bytes are then removed. -/
def pkcs7Unpad (data : List Nat) : Option (List Nat) :=
  match data.getLast? with
  | none => none
  | some n =>
    if n = 0 ∨ 16 < n then none
    else if (data.drop (data.length - n)).all (fun b => b == n) then
      some (data.take (data.length - n))
    else none

/-- `decrypt_padded_mut::<Pkcs7>` of the `cbc` crate: requires a nonempty
ciphertext whose length is a multiple of the block size, CBC-decrypts it,
and strips PKCS#7 padding. -/
def decryptPadded (rks : List (List Nat)) (iv ct : List Nat) : Option (List Nat) :=
  if ct.length % 16 = 0 ∧ ct ≠ [] then
    pkcs7Unpad ((cbcDecBlocks rks iv (chunks 16 ct)).flatten)
  else none

/-- Hex value of one ASCII digit byte (`0-9`, `a-f`, `A-F`), as accepted by
the `hex` crate. -/
def hexVal (c : Nat) : Option Nat :=
  if 48 ≤ c ∧ c ≤ 57 then some (c - 48)
  else if 97 ≤ c ∧ c ≤ 102 then some (c - 87)
  else if 65 ≤ c ∧ c ≤ 70 then some (c - 55)
  else none

/-- Errors of the `hex` crate's `decode`. -/
inductive HexErr where
  | oddLength : HexErr
  | invalidHexCharacter (c index : Nat) : HexErr
deriving DecidableEq

/-- Pairwise decoding loop of `hex::decode`; `idx` is the byte index used in
`InvalidHexCharacter` errors. -/
def hexDecodeGo : List Nat → Nat → Except HexErr (List Nat)
  | [], _ => .ok []
  | [_], _ => .error .oddLength
  | c1 :: c2 :: rest, idx =>
    match hexVal c1 with
    | none => .error (.invalidHexCharacter c1 idx)
    | some hi =>
      match hexVal c2 with
      | none => .error (.invalidHexCharacter c2 (idx + 1))
      | some lo => (hexDecodeGo rest (idx + 2)).map (fun t => (16 * hi + lo) :: t)

/-- `hex::decode`: fails on odd length, then decodes byte pairs, reporting
the first invalid digit. -/
def hexDecode (s : List Nat) : Except HexErr (List Nat) :=
  if s.length % 2 = 1 then .error .oddLength else hexDecodeGo s 0

/-- Lowercase hex digit byte for a value < 16. -/
def hexDigit (x : Nat) : Nat := if x < 10 then 48 + x else 87 + x

/-- `hex::encode` (lowercase). -/
def hexEncode (bs : List Nat) : List Nat :=
  (bs.map (fun b => [hexDigit (b / 16), hexDigit (b % 16)])).flatten

/-- Continuation byte test for UTF-8 (`0x80..0xBF`). -/
def isCont (b : Nat) : Bool := 128 ≤ b && b ≤ 191

/-- UTF-8 validity of a byte sequence, exactly the sequences accepted by
Rust `String::from_utf8`. -/
def validUtf8 : List Nat → Bool
  | [] => true
  | b :: r =>
    if b < 128 then validUtf8 r
    else if b < 194 then false
    else if b ≤ 223 then
      match r with
      | c :: r' => isCont c && validUtf8 r'
      | [] => false
    else if b = 224 then
      match r with
      | c1 :: c2 :: r' => (160 ≤ c1 && c1 ≤ 191) && isCont c2 && validUtf8 r'
      | _ => false
    else if b = 237 then
      match r with
      | c1 :: c2 :: r' => (128 ≤ c1 && c1 ≤ 159) && isCont c2 && validUtf8 r'
      | _ => false
    else if b ≤ 239 then
      match r with
      | c1 :: c2 :: r' => isCont c1 && isCont c2 && validUtf8 r'
      | _ => false
    else if b = 240 then
      match r with
      | c1 :: c2 :: c3 :: r' => (144 ≤ c1 && c1 ≤ 191) && isCont c2 && isCont c3 && validUtf8 r'
      | _ => false
    else if b ≤ 243 then
      match r with
      | c1 :: c2 :: c3 :: r' => isCont c1 && isCont c2 && isCont c3 && validUtf8 r'
      | _ => false
    else if b = 244 then
      match r with
      | c1 :: c2 :: c3 :: r' => (128 ≤ c1 && c1 ≤ 143) && isCont c2 && isCont c3 && validUtf8 r'
      | _ => false
    else false

/-- Display text of the `block-padding` crate's `UnpadError`.  No claim
depends on this exact text. -/
def unpadErrorMsg : String := "Unpad Error"

/-- Stand-in for the dynamic `FromUtf8Error` display text.  No claim depends
on this exact text. -/
def utf8ErrorMsg : String := "invalid utf-8"

/-- The error type of src/error.rs, restricted to the variants `crypto.rs`
and the assembly path can produce: `HexError` (from `hex::decode`) and
`DecryptionError` with its message. -/
inductive EcError where
  | hexError (e : HexErr)
  | decryptionError (msg : String)
deriving DecidableEq

/-- Embedding of `decrypt_aes_cbc` (src/crypto.rs lines 16-77): hex-decode
the ciphertext, reject keys shorter than 16 bytes, take the IV as the first
16 key bytes, dispatch on key length 16/24/32 to AES-128/192/256-CBC with
PKCS#7 unpadding (any other length is an invalid-key-length error), and
finally require the plaintext to be valid UTF-8. -/
def decrypt_aes_cbc (ct_hex key : List Nat) : Except EcError (List Nat) :=
  match hexDecode ct_hex with
  | .error e => .error (.hexError e)
  | .ok ct =>
    let key_len := key.length
    if key_len < 16 then
      .error (.decryptionError ("Key too short: " ++ toString key_len ++ " bytes (need at least 16)"))
    else
      let iv := key.take 16
      if key_len = 16 ∨ key_len = 24 ∨ key_len = 32 then
        match decryptPadded (keyExpansion key) iv ct with
        | none =>
          .error (.decryptionError
            ("AES-" ++ toString (key_len * 8) ++ " decryption failed: " ++ unpadErrorMsg))
        | some pt =>
          if validUtf8 pt then .ok pt
          else .error (.decryptionError ("UTF-8 conversion failed: " ++ utf8ErrorMsg))
      else
        .error (.decryptionError
          ("Invalid key length: " ++ toString key_len ++ " (must be 16, 24, or 32 bytes)"))

/-- Modelled from the spec: the encryption performed by the remote service,
which is absent from this repository.  AES-CBC encryption with PKCS#7
padding: ciphertext block `i` is the block encryption of plaintext block `i`
xored with ciphertext block `i - 1` (the IV for the first block). -/
def cbcEncBlocks (rks : List (List Nat)) (prev : List Nat) : List (List Nat) → List (List Nat)
  | [] => []
  | b :: bs =>
    let c := cipher rks (ark prev b)
    c :: cbcEncBlocks rks c bs

/-- Modelled from the spec: PKCS#7 padding to a 16-byte multiple (always
appends between 1 and 16 bytes). -/
def pkcs7Pad (p : List Nat) : List Nat :=
  let n := 16 - p.length % 16
  p ++ List.replicate n n

/-- Modelled from the spec: full AES-CBC + PKCS#7 encryption under `key`
with IV equal to the first 16 bytes of the key, as produced by the remote
service (spec section 8, round-trip property). -/
def aesCbcEncrypt (key p : List Nat) : List Nat :=
  (cbcEncBlocks (keyExpansion key) (key.take 16) (chunks 16 (pkcs7Pad p))).flatten

/-- Well-formed 16-byte AES state: sixteen bytes, each below 256. -/
def WfState (s : List Nat) : Prop := s.length = 16 ∧ ∀ b ∈ s, b < 256

/-- Well-formed expanded round keys: each round key is a well-formed state. -/
def WfKeys (ks : List (List Nat)) : Prop := ∀ k ∈ ks, k.length = 16 ∧ ∀ b ∈ k, b < 256

/-! ## src/client.rs: assembly of descriptions and inputs -/

/-- Per-part encrypted payload, keyed by the decimal strings "1", "2", "3"
(src/models.rs `EncryptedContent`; `fetch_description` reads the same shape
through `serde_json::Value`).  `none` models an absent or non-string
entry. -/
structure EncryptedContent where
  part1 : Option (List Nat)
  part2 : Option (List Nat)
  part3 : Option (List Nat)

/-- The separator block inserted before part `partNum` (src/client.rs lines
224-230): `"\n\n"`, eighty `=`, `"\n PART n \n"`, eighty `=`, `"\n\n"`. -/
def sepBytes (partNum : Nat) : List Nat :=
  [10, 10] ++ List.replicate 80 61 ++ [10, 32, 80, 65, 82, 84, 32, 48 + partNum, 32, 10] ++
    List.replicate 80 61 ++ [10, 10]

/-- One iteration of the assembly loop of `fetch_description` (src/client.rs
lines 214-234): when both the key and the payload entry for this part are
present, decrypt (propagating failure) and append, preceded by a separator
unless the document is still empty; otherwise leave the document unchanged. -/
def descStep (st : List Nat) (partNum : Nat) (keyOpt encOpt : Option (List Nat)) :
    Except EcError (List Nat) :=
  match keyOpt, encOpt with
  | some key, some enc =>
    match decrypt_aes_cbc enc key with
    | .error e => .error e
    | .ok d => .ok (st ++ (if st.isEmpty then [] else sepBytes partNum) ++ d)
  | _, _ => .ok st

/-- Embedding of the decrypt-and-assemble loop of `fetch_description`
(src/client.rs lines 212-236): parts 1..3 in order, part 1 keyed by `key1`,
parts 2 and 3 by the optional `key2`/`key3`. -/
def fetch_description (payload : EncryptedContent) (keys : QuestKeys) :
    Except EcError (List Nat) := do
  let s1 ← descStep [] 1 (some keys.key1) payload.part1
  let s2 ← descStep s1 2 keys.key2 payload.part2
  let s3 ← descStep s2 3 keys.key3 payload.part3
  .ok s3

/-- Rust `str::trim_matches('"')`: strip every leading and trailing
double-quote byte. -/
def trimQuotes (s : List Nat) : List Nat :=
  ((s.dropWhile (fun b => b == 34)).reverse.dropWhile (fun b => b == 34)).reverse

/-- Embedding of `fetch_input` (src/client.rs lines 139-182) restricted to
the legacy payload branch (body not starting with `{`, so treated as a plain
quoted string): the key for the REQUESTED part is resolved first (line 142,
failures become `DecryptionError`), then the body with surrounding quotes
trimmed is decrypted with that key.  The JSON-object branch is not
modelled. -/
def fetch_input_legacy (body : List Nat) (keys : QuestKeys) (part : Int) :
    Except EcError (List Nat) :=
  match keys.get_key part with
  | .error e => .error (.decryptionError e)
  | .ok key => decrypt_aes_cbc (trimQuotes body) key

/-- The ciphertext/key pair the assembly loop will attempt to decrypt for a
given part number: present exactly when both the part's key and the part's
payload entry are available (part 1's key is always `key1`). -/
def assemblySlot (payload : EncryptedContent) (keys : QuestKeys) : Nat → Option (List Nat × List Nat)
  | 1 => payload.part1.map (fun ct => (ct, keys.key1))
  | 2 =>
    match keys.key2, payload.part2 with
    | some k, some ct => some (ct, k)
    | _, _ => none
  | 3 =>
    match keys.key3, payload.part3 with
    | some k, some ct => some (ct, k)
    | _, _ => none
  | _ => none

/-! ## Whitespace (Unicode `White_Space`, as used by Rust `char::is_whitespace`
and the default Unicode `\s` of the `regex` crate), at the UTF-8 byte level -/

/-- Strip one leading whitespace character (as its UTF-8 byte sequence),
returning the remainder, or `none` when the input does not start with
whitespace. -/
def wsUnitRest : List Nat → Option (List Nat)
  | [] => none
  | a :: r =>
    if a = 9 ∨ a = 10 ∨ a = 11 ∨ a = 12 ∨ a = 13 ∨ a = 32 then some r
    else if a = 194 then
      match r with
      | b :: r2 => if b = 133 ∨ b = 160 then some r2 else none
      | [] => none
    else if a = 225 then
      match r with
      | b :: c :: r2 => if b = 154 ∧ c = 128 then some r2 else none
      | _ => none
    else if a = 226 then
      match r with
      | b :: c :: r2 =>
        if b = 128 ∧ ((128 ≤ c ∧ c ≤ 138) ∨ c = 168 ∨ c = 169 ∨ c = 175) then some r2
        else if b = 129 ∧ c = 159 then some r2 else none
      | _ => none
    else if a = 227 then
      match r with
      | b :: c :: r2 => if b = 128 ∧ c = 128 then some r2 else none
      | _ => none
    else none

/-- Fuel-driven loop of `skipWs` (fuel is always at least the byte length). -/
def skipWsGo : Nat → List Nat → List Nat
  | 0, s => s
  | fuel + 1, s =>
    match wsUnitRest s with
    | some r => skipWsGo fuel r
    | none => s

/-- Strip all leading whitespace characters. -/
def skipWs (s : List Nat) : List Nat := skipWsGo s.length s

/-- `wsUnitRest` on reversed byte sequences: strip one trailing whitespace
character from a reversed string. -/
def wsUnitRestRev : List Nat → Option (List Nat)
  | 9 :: r => some r
  | 10 :: r => some r
  | 11 :: r => some r
  | 12 :: r => some r
  | 13 :: r => some r
  | 32 :: r => some r
  | 133 :: 194 :: r => some r
  | 160 :: 194 :: r => some r
  | 128 :: 154 :: 225 :: r => some r
  | 159 :: 129 :: 226 :: r => some r
  | 128 :: 128 :: 227 :: r => some r
  | c :: 128 :: 226 :: r =>
    if (128 ≤ c ∧ c ≤ 138) ∨ c = 168 ∨ c = 169 ∨ c = 175 then some r else none
  | _ => none

/-- Fuel-driven loop of the trailing-whitespace stripper. -/
def skipWsRevGo : Nat → List Nat → List Nat
  | 0, s => s
  | fuel + 1, s =>
    match wsUnitRestRev s with
    | some r => skipWsRevGo fuel r
    | none => s

/-- Rust `str::trim`: strip leading and trailing whitespace characters. -/
def trimBytes (s : List Nat) : List Nat :=
  let front := skipWs s
  (skipWsRevGo front.reverse.length front.reverse).reverse

/-! ## src/display.rs: expected-answer extraction -/

/-- Bytes of the literal `"<pre>"`. -/
def litPre : List Nat := [60, 112, 114, 101, 62]

/-- Bytes of the literal `"<b>"`. -/
def litB : List Nat := [60, 98, 62]

/-- Bytes of the literal `"</b>"`. -/
def litCloseB : List Nat := [60, 47, 98, 62]

/-- Bytes of the literal `"</pre>"`. -/
def litClosePre : List Nat := [60, 47, 112, 114, 101, 62]

/-- Strip an exact literal prefix, returning the remainder. -/
def stripLit : List Nat → List Nat → Option (List Nat)
  | [], s => some s
  | _ :: _, [] => none
  | c :: l, b :: s => if c = b then stripLit l s else none

/-- Match the regex `<pre>\s*<b>([^<]+)</b>\s*</pre>` of
`extract_expected_answer` at the start of `s`, returning the capture and the
remainder after the match.  The pattern is deterministic: `\s` and `[^<]`
cannot consume `<`, so greedy maximal munch needs no backtracking. -/
def matchPat (s : List Nat) : Option (List Nat × List Nat) := do
  let s1 ← stripLit litPre s
  let s3 ← stripLit litB (skipWs s1)
  let cap := s3.takeWhile (fun b => !(b == 60))
  if cap.isEmpty then none
  else do
    let s5 ← stripLit litCloseB (s3.drop cap.length)
    let s7 ← stripLit litClosePre (skipWs s5)
    some (cap, s7)

/-- Scanning loop of `captures_iter`: try the pattern at each position from
left to right, resuming after the end of each (non-overlapping) match.  Fuel
is always at least the byte length. -/
def scanCapsGo : Nat → List Nat → List (List Nat)
  | 0, _ => []
  | fuel + 1, s =>
    match s with
    | [] => []
    | b :: t =>
      match matchPat (b :: t) with
      | some (cap, rest) => cap :: scanCapsGo fuel rest
      | none => scanCapsGo fuel t

/-- Embedding of `extract_expected_answer` (src/display.rs lines 19-26):
the last match of `<pre>\s*<b>([^<]+)</b>\s*</pre>`, its capture trimmed of
surrounding whitespace; `none` when the pattern never matches. -/
def extract_expected_answer (html : List Nat) : Option (List Nat) :=
  (scanCapsGo html.length html).getLast?.map trimBytes

/-- The SPEC'S reading of `extract_expected_answer`: the capture of the
pattern occurrence at the last starting position in the text, collected by
trying the pattern at every position in order.  Kept separate from the
source-derived scanning definition so the two can be compared. -/
def specLastOccurrenceCap (html : List Nat) : Option (List Nat) :=
  ((List.range html.length).filterMap
    (fun i => (matchPat (html.drop i)).map Prod.fst)).getLast?

/-- Decidable equality for `Except`, used to evaluate embedded operations at
concrete inputs. -/
instance {e a : Type} [DecidableEq e] [DecidableEq a] : DecidableEq (Except e a) := fun x y =>
  match x, y with
  | .ok u, .ok v =>
    if h : u = v then .isTrue (by rw [h]) else .isFalse (fun hh => h (Except.ok.inj hh))
  | .error u, .error v =>
    if h : u = v then .isTrue (by rw [h]) else .isFalse (fun hh => h (Except.error.inj hh))
  | .ok _, .error _ => .isFalse (fun hh => Except.noConfusion hh)
  | .error _, .ok _ => .isFalse (fun hh => Except.noConfusion hh)

/-! ## Claims C10 and C2 -/

/-- C10: for every `QuestKeys` value and every part number outside 1..3
(for example 0 or 4), `get_key` succeeds and returns `key1` instead of
reporting an error, even though only parts 1 through 3 exist. -/
theorem get_key_out_of_range_returns_key1 (keys : QuestKeys) (part : Int)
    (h1 : part ≠ 1) (h2 : part ≠ 2) (h3 : part ≠ 3) :
    keys.get_key part = .ok keys.key1 := by
  simp [QuestKeys.get_key, h1, h2, h3]

/-- Witness for C10: at the concrete out-of-range part number 4, `get_key`
returns `key1`. -/
theorem get_key_out_of_range_returns_key1_witness :
    QuestKeys.get_key ⟨[7, 7], none, none⟩ 4 = .ok [7, 7] :=
  get_key_out_of_range_returns_key1 ⟨[7, 7], none, none⟩ 4
    (by decide) (by decide) (by decide)

/-- C2 counterexample: the claim computes the cached part count from marker
PRESENCE (0/1 per marker), but the code counts marker OCCURRENCES.  On a
cached document consisting of the part-2 marker twice, with key2 and key3
both present, the claim's formula says stale (2 < 3) while the code says not
stale (3 < 3 is false). -/
theorem staleness_presence_count_counterexample :
    is_stale (part2Marker ++ part2Marker) ⟨[], some [], some []⟩ = false ∧
    specCachedPartCount (part2Marker ++ part2Marker) <
      available_parts ⟨[], some [], some []⟩ := by
  constructor
  · decide
  · decide

/-- C2 (amended): the staleness check returns true if and only if
`cachedPartCount < availablePartCount`, where the cached part count is
`1 + (number of occurrences of the part-2 marker) + (number of occurrences
of the part-3 marker)`; in particular the cache is never reported stale when
the counts are equal or the cache has more parts than the keys report. -/
theorem is_stale_iff_fewer_cached_parts (cached : List Nat) (keys : QuestKeys) :
    is_stale cached keys = true ↔ cached_parts cached < available_parts keys := by
  simp [is_stale]

/-! ### GF(2^8) arithmetic lemmas -/

theorem xor_mod128 (a b : Nat) : (a ^^^ b) % 128 = a % 128 ^^^ b % 128 := by
  apply Nat.eq_of_testBit_eq
  intro i
  simp only [show (128 : Nat) = 2 ^ 7 from rfl, Nat.testBit_mod_two_pow,
    Nat.testBit_xor, Bool.and_xor_distrib_left]

theorem two_mul_xor (x y : Nat) : 2 * (x ^^^ y) = 2 * x ^^^ 2 * y := by
  have h : ∀ z : Nat, 2 * z = z <<< 1 := by
    intro z; rw [Nat.shiftLeft_eq]; ring
  rw [h, h, h]
  apply Nat.eq_of_testBit_eq
  intro i
  simp [Nat.testBit_shiftLeft, Nat.testBit_xor, Bool.and_xor_distrib_left]

theorem xor_pair_cancel (x y c : Nat) : (x ^^^ c) ^^^ (y ^^^ c) = x ^^^ y := by
  apply Nat.eq_of_testBit_eq
  intro i
  simp [Nat.testBit_xor]
  cases x.testBit i <;> cases y.testBit i <;> cases c.testBit i <;> rfl

theorem xtime_xor (a b : Nat) : xtime (a ^^^ b) = xtime a ^^^ xtime b := by
  unfold xtime
  rw [xor_mod128, two_mul_xor, Nat.testBit_xor]
  cases ha : a.testBit 7 <;> cases hb : b.testBit 7 <;>
    simp [Bool.xor] <;> try ac_rfl
  · exact (xor_pair_cancel _ _ 27).symm

theorem mul3_xor (a b : Nat) : mul3 (a ^^^ b) = mul3 a ^^^ mul3 b := by
  unfold mul3; rw [xtime_xor]; ac_rfl

theorem xt2_xor (a b : Nat) : xt2 (a ^^^ b) = xt2 a ^^^ xt2 b := by
  unfold xt2; rw [xtime_xor, xtime_xor]

theorem xt3_xor (a b : Nat) : xt3 (a ^^^ b) = xt3 a ^^^ xt3 b := by
  unfold xt3; rw [xt2_xor, xtime_xor]

theorem mul9_xor (a b : Nat) : mul9 (a ^^^ b) = mul9 a ^^^ mul9 b := by
  unfold mul9; rw [xt3_xor]; ac_rfl

theorem mul11_xor (a b : Nat) : mul11 (a ^^^ b) = mul11 a ^^^ mul11 b := by
  unfold mul11; rw [xt3_xor, xtime_xor]; ac_rfl

theorem mul13_xor (a b : Nat) : mul13 (a ^^^ b) = mul13 a ^^^ mul13 b := by
  unfold mul13; rw [xt3_xor, xt2_xor]; ac_rfl

theorem mul14_xor (a b : Nat) : mul14 (a ^^^ b) = mul14 a ^^^ mul14 b := by
  unfold mul14; rw [xt3_xor, xt2_xor, xtime_xor]; ac_rfl

theorem xor_lt_256 {x y : Nat} (hx : x < 256) (hy : y < 256) : x ^^^ y < 256 :=
  @Nat.xor_lt_two_pow x y 8 hx hy

theorem xtime_lt (a : Nat) : xtime a < 256 := by
  unfold xtime
  apply xor_lt_256
  · have : a % 128 < 128 := Nat.mod_lt a (by omega)
    omega
  · split <;> omega

theorem mul3_lt {a : Nat} (h : a < 256) : mul3 a < 256 := xor_lt_256 (xtime_lt a) h

theorem xt2_lt (a : Nat) : xt2 a < 256 := xtime_lt _

theorem xt3_lt (a : Nat) : xt3 a < 256 := xtime_lt _

theorem mul9_lt {a : Nat} (h : a < 256) : mul9 a < 256 := xor_lt_256 (xt3_lt a) h

theorem mul11_lt {a : Nat} (h : a < 256) : mul11 a < 256 :=
  xor_lt_256 (xor_lt_256 (xt3_lt a) (xtime_lt a)) h

theorem mul13_lt {a : Nat} (h : a < 256) : mul13 a < 256 :=
  xor_lt_256 (xor_lt_256 (xt3_lt a) (xt2_lt a)) h

theorem mul14_lt (a : Nat) : mul14 a < 256 :=
  xor_lt_256 (xor_lt_256 (xt3_lt a) (xt2_lt a)) (xtime_lt a)

set_option maxRecDepth 4000 in
theorem mixInv_diag (x : Nat) (h : x < 256) :
    mul14 (xtime x) ^^^ mul11 x ^^^ mul13 x ^^^ mul9 (mul3 x) = x :=
  (by decide : ∀ b : Fin 256,
    mul14 (xtime b.val) ^^^ mul11 b.val ^^^ mul13 b.val ^^^ mul9 (mul3 b.val) = b.val) ⟨x, h⟩

set_option maxRecDepth 4000 in
theorem mixInv_z1 (x : Nat) (h : x < 256) :
    mul14 (mul3 x) ^^^ mul11 (xtime x) ^^^ mul13 x ^^^ mul9 x = 0 :=
  (by decide : ∀ b : Fin 256,
    mul14 (mul3 b.val) ^^^ mul11 (xtime b.val) ^^^ mul13 b.val ^^^ mul9 b.val = 0) ⟨x, h⟩

set_option maxRecDepth 4000 in
theorem mixInv_z2 (x : Nat) (h : x < 256) :
    mul14 x ^^^ mul11 (mul3 x) ^^^ mul13 (xtime x) ^^^ mul9 x = 0 :=
  (by decide : ∀ b : Fin 256,
    mul14 b.val ^^^ mul11 (mul3 b.val) ^^^ mul13 (xtime b.val) ^^^ mul9 b.val = 0) ⟨x, h⟩

set_option maxRecDepth 4000 in
theorem mixInv_z3 (x : Nat) (h : x < 256) :
    mul14 x ^^^ mul11 x ^^^ mul13 (mul3 x) ^^^ mul9 (xtime x) = 0 :=
  (by decide : ∀ b : Fin 256,
    mul14 b.val ^^^ mul11 b.val ^^^ mul13 (mul3 b.val) ^^^ mul9 (xtime b.val) = 0) ⟨x, h⟩

theorem invMixColumn_mixColumn (a b c d : Nat)
    (ha : a < 256) (hb : b < 256) (hc : c < 256) (hd : d < 256) :
    invMixColumn (mixColumn [a, b, c, d]) = [a, b, c, d] := by
  simp only [mixColumn, invMixColumn, List.cons.injEq, and_true]
  refine ⟨?_, ?_, ?_, ?_⟩
  · calc mul14 (xtime a ^^^ mul3 b ^^^ c ^^^ d) ^^^ mul11 (a ^^^ xtime b ^^^ mul3 c ^^^ d) ^^^
        mul13 (a ^^^ b ^^^ xtime c ^^^ mul3 d) ^^^ mul9 (mul3 a ^^^ b ^^^ c ^^^ xtime d)
        = (mul14 (xtime a) ^^^ mul11 a ^^^ mul13 a ^^^ mul9 (mul3 a)) ^^^
          ((mul14 (mul3 b) ^^^ mul11 (xtime b) ^^^ mul13 b ^^^ mul9 b) ^^^
           ((mul14 c ^^^ mul11 (mul3 c) ^^^ mul13 (xtime c) ^^^ mul9 c) ^^^
            (mul14 d ^^^ mul11 d ^^^ mul13 (mul3 d) ^^^ mul9 (xtime d)))) := by
          simp only [mul14_xor, mul11_xor, mul13_xor, mul9_xor]; ac_rfl
      _ = a := by
          rw [mixInv_diag a ha, mixInv_z1 b hb, mixInv_z2 c hc, mixInv_z3 d hd]; simp
  · calc mul9 (xtime a ^^^ mul3 b ^^^ c ^^^ d) ^^^ mul14 (a ^^^ xtime b ^^^ mul3 c ^^^ d) ^^^
        mul11 (a ^^^ b ^^^ xtime c ^^^ mul3 d) ^^^ mul13 (mul3 a ^^^ b ^^^ c ^^^ xtime d)
        = (mul14 a ^^^ mul11 a ^^^ mul13 (mul3 a) ^^^ mul9 (xtime a)) ^^^
          ((mul14 (xtime b) ^^^ mul11 b ^^^ mul13 b ^^^ mul9 (mul3 b)) ^^^
           ((mul14 (mul3 c) ^^^ mul11 (xtime c) ^^^ mul13 c ^^^ mul9 c) ^^^
            (mul14 d ^^^ mul11 (mul3 d) ^^^ mul13 (xtime d) ^^^ mul9 d))) := by
          simp only [mul14_xor, mul11_xor, mul13_xor, mul9_xor]; ac_rfl
      _ = b := by
          rw [mixInv_z3 a ha, mixInv_diag b hb, mixInv_z1 c hc, mixInv_z2 d hd]; simp
  · calc mul13 (xtime a ^^^ mul3 b ^^^ c ^^^ d) ^^^ mul9 (a ^^^ xtime b ^^^ mul3 c ^^^ d) ^^^
        mul14 (a ^^^ b ^^^ xtime c ^^^ mul3 d) ^^^ mul11 (mul3 a ^^^ b ^^^ c ^^^ xtime d)
        = (mul14 a ^^^ mul11 (mul3 a) ^^^ mul13 (xtime a) ^^^ mul9 a) ^^^
          ((mul14 b ^^^ mul11 b ^^^ mul13 (mul3 b) ^^^ mul9 (xtime b)) ^^^
           ((mul14 (xtime c) ^^^ mul11 c ^^^ mul13 c ^^^ mul9 (mul3 c)) ^^^
            (mul14 (mul3 d) ^^^ mul11 (xtime d) ^^^ mul13 d ^^^ mul9 d))) := by
          simp only [mul14_xor, mul11_xor, mul13_xor, mul9_xor]; ac_rfl
      _ = c := by
          rw [mixInv_z2 a ha, mixInv_z3 b hb, mixInv_diag c hc, mixInv_z1 d hd]; simp
  · calc mul11 (xtime a ^^^ mul3 b ^^^ c ^^^ d) ^^^ mul13 (a ^^^ xtime b ^^^ mul3 c ^^^ d) ^^^
        mul9 (a ^^^ b ^^^ xtime c ^^^ mul3 d) ^^^ mul14 (mul3 a ^^^ b ^^^ c ^^^ xtime d)
        = (mul14 (mul3 a) ^^^ mul11 (xtime a) ^^^ mul13 a ^^^ mul9 a) ^^^
          ((mul14 b ^^^ mul11 (mul3 b) ^^^ mul13 (xtime b) ^^^ mul9 b) ^^^
           ((mul14 c ^^^ mul11 c ^^^ mul13 (mul3 c) ^^^ mul9 (xtime c)) ^^^
            (mul14 (xtime d) ^^^ mul11 d ^^^ mul13 d ^^^ mul9 (mul3 d)))) := by
          simp only [mul14_xor, mul11_xor, mul13_xor, mul9_xor]; ac_rfl
      _ = d := by
          rw [mixInv_z1 a ha, mixInv_z2 b hb, mixInv_z3 c hc, mixInv_diag d hd]; simp

/-! ### Table lookup lemmas -/

theorem getD_lt_of_all : ∀ (l : List Nat), (∀ x ∈ l, x < 256) → ∀ (d : Nat), d < 256 →
    ∀ (n : Nat), l.getD n d < 256
  | [], _, d, hd, n => by simpa [List.getD] using hd
  | a :: t, hl, d, hd, 0 => by
    simpa [List.getD] using hl a (by simp)
  | a :: t, hl, d, hd, n + 1 => by
    simpa [List.getD] using
      getD_lt_of_all t (fun x hx => hl x (by simp [hx])) d hd n

set_option maxRecDepth 4000 in
theorem sb_lt (b : Nat) : sb b < 256 :=
  getD_lt_of_all sboxList (by decide) 0 (by decide) b

set_option maxRecDepth 4000 in
theorem isb_lt (b : Nat) : isb b < 256 :=
  getD_lt_of_all invSboxList (by decide) 0 (by decide) b

set_option maxRecDepth 2000 in
theorem isb_sb {b : Nat} (h : b < 256) : isb (sb b) = b :=
  (by decide : ∀ x : Fin 256, isb (sb x.val) = x.val) ⟨b, h⟩

/-! ### State operation lemmas -/

theorem ark_ark : ∀ (s k : List Nat), s.length ≤ k.length → ark k (ark k s) = s
  | [], _, _ => rfl
  | _ :: _, [], h => by simp at h
  | a :: s, b :: k, h => by
    simp only [ark, List.zipWith_cons_cons, Nat.xor_cancel_right, List.cons.injEq, true_and]
    exact ark_ark s k (by simpa using h)

theorem ark_length (k s : List Nat) : (ark k s).length = min s.length k.length := by
  simp [ark]

theorem ark_mem_lt : ∀ (k s : List Nat), (∀ b ∈ s, b < 256) → (∀ b ∈ k, b < 256) →
    ∀ b ∈ ark k s, b < 256
  | _, [], _, _ => by simp [ark]
  | [], _ :: _, _, _ => by simp [ark]
  | a :: k, b :: s, hs, hk => by
    simp only [ark, List.zipWith_cons_cons, List.mem_cons]
    rintro x (rfl | hx)
    · exact xor_lt_256 (hs b (by simp)) (hk a (by simp))
    · exact ark_mem_lt k s (fun y hy => hs y (by simp [hy]))
        (fun y hy => hk y (by simp [hy])) x hx

theorem map_getD_range : ∀ (s : List Nat), (List.range s.length).map (fun i => s.getD i 0) = s
  | [] => rfl
  | a :: t => by
    rw [List.length_cons, List.range_succ_eq_map, List.map_cons, List.map_map]
    simp only [List.getD_cons_zero, Function.comp, Nat.succ_eq_add_one, List.getD_cons_succ]
    exact congrArg (a :: ·) (map_getD_range t)

theorem invShiftRows_shiftRows (s : List Nat) (h : s.length = 16) :
    invShiftRows (shiftRows s) = s := by
  have key : invShiftRows (shiftRows s) = (List.range 16).map (fun i => s.getD i 0) := by
    simp [invShiftRows, shiftRows, shiftIdx, invShiftIdx, List.range_succ]
  rw [key, show (16 : Nat) = s.length from h.symm, map_getD_range]

theorem shiftRows_length (s : List Nat) : (shiftRows s).length = 16 := by
  simp [shiftRows, shiftIdx]

theorem shiftRows_mem_lt {s : List Nat} (hs : ∀ b ∈ s, b < 256) :
    ∀ b ∈ shiftRows s, b < 256 := by
  intro b hb
  obtain ⟨i, -, rfl⟩ := List.mem_map.mp hb
  exact getD_lt_of_all s hs 0 (by decide) i

theorem invSubBytes_subBytes (s : List Nat) (h : ∀ b ∈ s, b < 256) :
    invSubBytes (subBytes s) = s := by
  unfold invSubBytes subBytes
  rw [List.map_map]
  have := @List.map_congr_left Nat s Nat (isb ∘ sb) id
    (fun a ha => isb_sb (h a ha))
  rw [this, List.map_id]

/-! ### Chunking lemmas -/

theorem chunksGo_nil (f n : Nat) : chunksGo f n [] = [] := by cases f <;> rfl

theorem chunksGo_fuel_irrel {n : Nat} (hn : 0 < n) :
    ∀ (f1 : Nat) (l : List Nat) (f2 : Nat), l.length ≤ f1 → l.length ≤ f2 →
      chunksGo f1 n l = chunksGo f2 n l
  | 0, l, f2, h1, h2 => by
    have : l = [] := List.length_eq_zero.mp (Nat.le_zero.mp h1)
    subst this; rw [chunksGo_nil, chunksGo_nil]
  | f1 + 1, [], f2, h1, h2 => by rw [chunksGo_nil, chunksGo_nil]
  | f1 + 1, b :: t, f2 + 1, h1, h2 => by
    simp only [chunksGo, List.cons.injEq, true_and]
    apply chunksGo_fuel_irrel hn
    · simp only [List.length_drop, List.length_cons] at *; omega
    · simp only [List.length_drop, List.length_cons] at *; omega

theorem chunksGo_flatten {n : Nat} (hn : 0 < n) :
    ∀ (f : Nat) (l : List Nat), l.length ≤ f → (chunksGo f n l).flatten = l
  | 0, l, h => by
    have : l = [] := List.length_eq_zero.mp (Nat.le_zero.mp h)
    subst this; rfl
  | f + 1, [], _ => rfl
  | f + 1, b :: t, h => by
    simp only [chunksGo, List.flatten_cons]
    rw [chunksGo_flatten hn f ((b :: t).drop n)
      (by simp only [List.length_drop, List.length_cons] at *; omega)]
    exact List.take_append_drop n (b :: t)

theorem chunks_flatten {n : Nat} (hn : 0 < n) (l : List Nat) : (chunks n l).flatten = l :=
  chunksGo_flatten hn l.length l le_rfl

theorem chunks_of_flatten {n : Nat} (hn : 0 < n) :
    ∀ (L : List (List Nat)), (∀ c ∈ L, c.length = n) → chunks n L.flatten = L
  | [], _ => rfl
  | c :: L, h => by
    have hcn : c.length = n := h c (by simp)
    have hrest : ∀ c' ∈ L, c'.length = n := fun c' hc' => h c' (by simp [hc'])
    obtain ⟨b, ct, rfl⟩ : ∃ b ct, c = b :: ct := by
      cases c with
      | nil => simp at hcn; omega
      | cons b ct => exact ⟨b, ct, rfl⟩
    unfold chunks
    have hflat : ((b :: ct) :: L).flatten = b :: (ct ++ L.flatten) := by simp
    rw [hflat]
    simp only [chunksGo, List.length_cons]
    have hexp : b :: (ct ++ L.flatten) = (b :: ct) ++ L.flatten := by simp
    have htake : (b :: (ct ++ L.flatten)).take n = b :: ct := by
      rw [hexp, List.take_left' hcn]
    have hdrop : (b :: (ct ++ L.flatten)).drop n = L.flatten := by
      rw [hexp, List.drop_left' hcn]
    rw [htake, hdrop]
    have h2 : chunksGo (ct ++ L.flatten).length n L.flatten =
        chunksGo L.flatten.length n L.flatten := by
      apply chunksGo_fuel_irrel hn
      · simp
      · exact le_rfl
    rw [h2]
    exact congrArg ((b :: ct) :: ·) (chunks_of_flatten hn L hrest)

theorem chunksGo_mem_length {n : Nat} (hn : 0 < n) :
    ∀ (f : Nat) (l : List Nat), l.length ≤ f → n ∣ l.length →
      ∀ c ∈ chunksGo f n l, c.length = n
  | 0, l, hl, _, c, hc => by
    have : l = [] := List.length_eq_zero.mp (Nat.le_zero.mp hl)
    subst this; rw [chunksGo_nil] at hc; simp at hc
  | f + 1, [], _, _, c, hc => by simp [chunksGo] at hc
  | f + 1, b :: t, hl, hdvd, c, hc => by
    have hlen : n ≤ (b :: t).length := by
      rcases hdvd with ⟨k, hk⟩
      rcases k with _ | k
      · simp at hk
      · simp only [hk]; calc n = n * 1 := by ring
          _ ≤ n * (k + 1) := Nat.mul_le_mul_left n (by omega)
    simp only [chunksGo, List.mem_cons] at hc
    rcases hc with rfl | hc
    · simp only [List.length_take]; omega
    · apply chunksGo_mem_length hn f ((b :: t).drop n) _ _ c hc
      · simp only [List.length_drop, List.length_cons] at *; omega
      · simp only [List.length_drop]
        exact (Nat.dvd_sub' hdvd dvd_rfl)

theorem chunks_mem_length {n : Nat} (hn : 0 < n) (l : List Nat) (hdvd : n ∣ l.length) :
    ∀ c ∈ chunks n l, c.length = n :=
  chunksGo_mem_length hn l.length l le_rfl hdvd

theorem chunks_mem_subset {n : Nat} (hn : 0 < n) (l : List Nat) :
    ∀ c ∈ chunks n l, ∀ x ∈ c, x ∈ l := by
  intro c hc x hx
  have : x ∈ (chunks n l).flatten := List.mem_flatten.mpr ⟨c, hc, hx⟩
  rwa [chunks_flatten hn] at this

theorem flatten_length_of_all {n : Nat} :
    ∀ (L : List (List Nat)), (∀ c ∈ L, c.length = n) → L.flatten.length = n * L.length
  | [], _ => by simp
  | c :: L, h => by
    simp only [List.flatten_cons, List.length_append, List.length_cons]
    rw [h c (by simp), flatten_length_of_all L (fun c' hc' => h c' (by simp [hc']))]
    ring

/-! ### MixColumns at state level, well-formedness, round inversion -/

theorem exists_four (l : List Nat) (h : l.length = 4) : ∃ a b c d, l = [a, b, c, d] := by
  rcases l with _ | ⟨a, l⟩; · simp at h
  rcases l with _ | ⟨b, l⟩; · simp at h
  rcases l with _ | ⟨c, l⟩; · simp at h
  rcases l with _ | ⟨d, l⟩; · simp at h
  rcases l with _ | ⟨e, l⟩
  · exact ⟨a, b, c, d, rfl⟩
  · simp at h

theorem mixColumn_length {c : List Nat} (h : c.length = 4) : (mixColumn c).length = 4 := by
  obtain ⟨a, b, x, d, rfl⟩ := exists_four c h
  rfl

theorem mixColumn_mem_lt {c : List Nat} (h : c.length = 4) (hb : ∀ b ∈ c, b < 256) :
    ∀ x ∈ mixColumn c, x < 256 := by
  obtain ⟨a, b, u, d, rfl⟩ := exists_four c h
  have ha := hb a (by simp)
  have hb' := hb b (by simp)
  have hu := hb u (by simp)
  have hd := hb d (by simp)
  intro x hx
  simp only [mixColumn, List.mem_cons, List.not_mem_nil, or_false] at hx
  rcases hx with rfl | rfl | rfl | rfl
  · exact xor_lt_256 (xor_lt_256 (xor_lt_256 (xtime_lt a) (mul3_lt hb')) hu) hd
  · exact xor_lt_256 (xor_lt_256 (xor_lt_256 ha (xtime_lt b)) (mul3_lt hu)) hd
  · exact xor_lt_256 (xor_lt_256 (xor_lt_256 ha hb') (xtime_lt u)) (mul3_lt hd)
  · exact xor_lt_256 (xor_lt_256 (xor_lt_256 (mul3_lt ha) hb') hu) (xtime_lt d)

theorem chunks4_count (s : List Nat) (h : s.length = 16) : (chunks 4 s).length = 4 := by
  have hdvd : (4 : Nat) ∣ s.length := by rw [h]; decide
  have hall := chunks_mem_length (by decide : (0:Nat) < 4) s hdvd
  have := flatten_length_of_all (chunks 4 s) hall
  rw [chunks_flatten (by decide) s, h] at this
  omega

theorem mixColumns_length (s : List Nat) (h : s.length = 16) : (mixColumns s).length = 16 := by
  unfold mixColumns
  have hdvd : (4 : Nat) ∣ s.length := by rw [h]; decide
  have hall := chunks_mem_length (by decide : (0:Nat) < 4) s hdvd
  have hmap : ∀ c ∈ (chunks 4 s).map mixColumn, c.length = 4 := by
    intro c hc
    obtain ⟨c', hc', rfl⟩ := List.mem_map.mp hc
    exact mixColumn_length (hall c' hc')
  rw [flatten_length_of_all _ hmap, List.length_map, chunks4_count s h]

theorem mixColumns_mem_lt {s : List Nat} (h : s.length = 16) (hb : ∀ b ∈ s, b < 256) :
    ∀ x ∈ mixColumns s, x < 256 := by
  intro x hx
  unfold mixColumns at hx
  obtain ⟨c, hc, hxc⟩ := List.mem_flatten.mp hx
  obtain ⟨c', hc', rfl⟩ := List.mem_map.mp hc
  have hdvd : (4 : Nat) ∣ s.length := by rw [h]; decide
  have hall := chunks_mem_length (by decide : (0:Nat) < 4) s hdvd
  exact mixColumn_mem_lt (hall c' hc')
    (fun y hy => hb y (chunks_mem_subset (by decide) s c' hc' y hy)) x hxc

theorem invMixColumns_mixColumns (s : List Nat) (hl : s.length = 16)
    (hb : ∀ b ∈ s, b < 256) : invMixColumns (mixColumns s) = s := by
  unfold mixColumns invMixColumns
  have hdvd : (4 : Nat) ∣ s.length := by rw [hl]; decide
  have hall := chunks_mem_length (by decide : (0:Nat) < 4) s hdvd
  have hmap : ∀ c ∈ (chunks 4 s).map mixColumn, c.length = 4 := by
    intro c hc
    obtain ⟨c', hc', rfl⟩ := List.mem_map.mp hc
    exact mixColumn_length (hall c' hc')
  rw [chunks_of_flatten (by decide) _ hmap, List.map_map]
  have hid : ∀ c ∈ chunks 4 s, (invMixColumn ∘ mixColumn) c = id c := by
    intro c hc
    obtain ⟨a, b, u, d, rfl⟩ := exists_four c (hall c hc)
    have hmem := chunks_mem_subset (by decide : (0:Nat) < 4) s _ hc
    exact invMixColumn_mixColumn a b u d
      (hb a (hmem a (by simp))) (hb b (hmem b (by simp)))
      (hb u (hmem u (by simp))) (hb d (hmem d (by simp)))
  rw [List.map_congr_left hid, List.map_id]
  exact chunks_flatten (by decide) s

theorem subBytes_wf {s : List Nat} (h : WfState s) : WfState (subBytes s) := by
  refine ⟨by simp [subBytes, h.1], ?_⟩
  intro b hb
  obtain ⟨a, _, rfl⟩ := List.mem_map.mp hb
  exact sb_lt a

theorem shiftRows_wf {s : List Nat} (_ : WfState s) : WfState (shiftRows s) := by
  rename_i h
  exact ⟨shiftRows_length s, shiftRows_mem_lt h.2⟩

theorem mixColumns_wf {s : List Nat} (h : WfState s) : WfState (mixColumns s) :=
  ⟨mixColumns_length s h.1, mixColumns_mem_lt h.1 h.2⟩

theorem ark_wf {k s : List Nat} (h : WfState s) (hkl : k.length = 16)
    (hkb : ∀ b ∈ k, b < 256) : WfState (ark k s) := by
  refine ⟨?_, ark_mem_lt k s h.2 hkb⟩
  rw [ark_length, h.1, hkl]
  exact min_self 16

theorem encR_wf : ∀ (ks : List (List Nat)) (s : List Nat), WfKeys ks → WfState s →
    WfState (encR ks s)
  | [], s, _, hs => hs
  | [k], s, hks, hs => by
    have hk := hks k (by simp)
    exact ark_wf (shiftRows_wf (subBytes_wf hs)) hk.1 hk.2
  | k :: k' :: ks, s, hks, hs => by
    have hk := hks k (by simp)
    apply encR_wf (k' :: ks) _ (fun x hx => hks x (by simp [List.mem_cons] at hx ⊢; tauto))
    exact ark_wf (mixColumns_wf (shiftRows_wf (subBytes_wf hs))) hk.1 hk.2

theorem cipher_wf {ks : List (List Nat)} {s : List Nat} (hks : WfKeys ks) (hs : WfState s) :
    WfState (cipher ks s) := by
  cases ks with
  | nil => exact hs
  | cons k rest =>
    have hk := hks k (by simp)
    exact encR_wf rest _ (fun x hx => hks x (by simp [hx]))
      (ark_wf hs hk.1 hk.2)

theorem decR_encR : ∀ (ks : List (List Nat)) (s : List Nat), WfKeys ks → WfState s →
    decR ks (encR ks s) = s
  | [], s, _, _ => rfl
  | [k], s, hks, hs => by
    have hk := hks k (by simp)
    simp only [encR, decR]
    rw [ark_ark _ k (by rw [shiftRows_length, hk.1]),
      invShiftRows_shiftRows _ (by simp [subBytes, hs.1]),
      invSubBytes_subBytes _ hs.2]
  | k :: k' :: ks, s, hks, hs => by
    have hk := hks k (by simp)
    have hks' : WfKeys (k' :: ks) := fun x hx => hks x (by simp [List.mem_cons] at hx ⊢; tauto)
    have hmix : WfState (mixColumns (shiftRows (subBytes s))) :=
      mixColumns_wf (shiftRows_wf (subBytes_wf hs))
    have hX : WfState (ark k (mixColumns (shiftRows (subBytes s)))) := ark_wf hmix hk.1 hk.2
    simp only [encR, decR]
    rw [decR_encR (k' :: ks) _ hks' hX]
    rw [ark_ark _ k (by rw [hmix.1, hk.1])]
    rw [invMixColumns_mixColumns _ (shiftRows_length (subBytes s))
      (shiftRows_mem_lt (subBytes_wf hs).2)]
    rw [invShiftRows_shiftRows _ (by simp [subBytes, hs.1])]
    rw [invSubBytes_subBytes _ hs.2]

theorem invCipher_cipher {ks : List (List Nat)} {b : List Nat} (hks : WfKeys ks)
    (hb : WfState b) : invCipher ks (cipher ks b) = b := by
  cases ks with
  | nil => rfl
  | cons k rest =>
    have hk := hks k (by simp)
    have hrest : WfKeys rest := fun x hx => hks x (by simp [hx])
    simp only [cipher, invCipher]
    rw [decR_encR rest _ hrest (ark_wf hb hk.1 hk.2),
      ark_ark b k (by rw [hb.1, hk.1])]

/-! ### Key expansion well-formedness -/

theorem rcon_lt (i : Nat) : rcon i < 256 :=
  getD_lt_of_all rconList (by decide) 0 (by decide) _

theorem getLastD_mem {α : Type} : ∀ (l : List α) (d : α), l ≠ [] → l.getLastD d ∈ l
  | [a], _, _ => by simp
  | a :: b :: t, d, _ => by
    have ih := getLastD_mem (b :: t) a (by simp)
    simp only [List.getLastD]
    exact List.mem_cons_of_mem a ih

theorem nextWord_wf {nk i : Nat} {prev old : List Nat}
    (hp : prev.length = 4 ∧ ∀ b ∈ prev, b < 256)
    (ho : old.length = 4 ∧ ∀ b ∈ old, b < 256) :
    (nextWord nk i prev old).length = 4 ∧ ∀ b ∈ nextWord nk i prev old, b < 256 := by
  obtain ⟨a, b, c, d, rfl⟩ := exists_four prev hp.1
  obtain ⟨e, f, g, h, rfl⟩ := exists_four old ho.1
  have ha := hp.2 a (by simp); have hb := hp.2 b (by simp)
  have hc := hp.2 c (by simp); have hd := hp.2 d (by simp)
  have he := ho.2 e (by simp); have hf := ho.2 f (by simp)
  have hg := ho.2 g (by simp); have hh := ho.2 h (by simp)
  unfold nextWord
  split
  · refine ⟨rfl, ?_⟩
    intro x hx
    simp only [rotWord, subWord, List.map_cons, List.map_nil, List.zipWith_cons_cons,
      List.zipWith_nil_right, List.mem_cons, List.not_mem_nil, or_false,
      Nat.xor_zero] at hx
    rcases hx with rfl | rfl | rfl | rfl
    · exact xor_lt_256 he (xor_lt_256 (sb_lt b) (rcon_lt _))
    · exact xor_lt_256 hf (sb_lt c)
    · exact xor_lt_256 hg (sb_lt d)
    · exact xor_lt_256 hh (sb_lt a)
  · split
    · refine ⟨rfl, ?_⟩
      intro x hx
      simp only [subWord, List.map_cons, List.map_nil, List.zipWith_cons_cons,
        List.zipWith_nil_right, List.mem_cons, List.not_mem_nil, or_false] at hx
      rcases hx with rfl | rfl | rfl | rfl
      · exact xor_lt_256 he (sb_lt a)
      · exact xor_lt_256 hf (sb_lt b)
      · exact xor_lt_256 hg (sb_lt c)
      · exact xor_lt_256 hh (sb_lt d)
    · refine ⟨rfl, ?_⟩
      intro x hx
      simp only [List.zipWith_cons_cons, List.zipWith_nil_right, List.mem_cons,
        List.not_mem_nil, or_false] at hx
      rcases hx with rfl | rfl | rfl | rfl
      · exact xor_lt_256 he ha
      · exact xor_lt_256 hf hb
      · exact xor_lt_256 hg hc
      · exact xor_lt_256 hh hd

theorem expandWords_wf : ∀ (count : Nat) {nk : Nat} (ws : List (List Nat)), 0 < nk →
    nk ≤ ws.length → (∀ w ∈ ws, w.length = 4 ∧ ∀ b ∈ w, b < 256) →
    (∀ w ∈ expandWords nk ws count, w.length = 4 ∧ ∀ b ∈ w, b < 256) ∧
      (expandWords nk ws count).length = ws.length + count
  | 0, nk, ws, _, _, hws => ⟨hws, by simp [expandWords]⟩
  | count + 1, nk, ws, hnk, hle, hws => by
    have hne : ws ≠ [] := by
      intro h; subst h; simp at hle; omega
    have hprev : ws.getLastD [] ∈ ws := getLastD_mem ws [] hne
    have hidx : ws.length - nk < ws.length := by
      have : 0 < ws.length := List.length_pos.mpr hne
      omega
    have hold : ws.getD (ws.length - nk) [] ∈ ws := by
      rw [List.getD_eq_getElem _ _ hidx]
      exact List.getElem_mem _
    have hw' := @nextWord_wf nk ws.length _ _ (hws _ hprev) (hws _ hold)
    have hall : ∀ w ∈ ws ++ [nextWord nk ws.length (ws.getLastD [])
        (ws.getD (ws.length - nk) [])], w.length = 4 ∧ ∀ b ∈ w, b < 256 := by
      intro w hw
      rcases List.mem_append.mp hw with hw | hw
      · exact hws w hw
      · simp only [List.mem_singleton] at hw
        subst hw; exact hw'
    have ih := expandWords_wf count
      (ws ++ [nextWord nk ws.length (ws.getLastD []) (ws.getD (ws.length - nk) [])])
      hnk (by simp; omega) hall
    refine ⟨ih.1, ?_⟩
    show (expandWords nk (ws ++ [nextWord nk ws.length (ws.getLastD [])
      (ws.getD (ws.length - nk) [])]) count).length = ws.length + (count + 1)
    rw [ih.2]
    simp only [List.length_append, List.length_cons, List.length_nil]
    omega

theorem chunks4w_wf : ∀ (ws : List (List Nat)), 4 ∣ ws.length →
    (∀ w ∈ ws, w.length = 4 ∧ ∀ b ∈ w, b < 256) →
    ∀ rk ∈ (keyExpansion.chunks4w ws).map List.flatten,
      rk.length = 16 ∧ ∀ b ∈ rk, b < 256
  | [], _, _ => by simp [keyExpansion.chunks4w]
  | [a], hdvd, _ => by simp only [List.length_cons, List.length_nil] at hdvd; omega
  | [a, b], hdvd, _ => by simp only [List.length_cons, List.length_nil] at hdvd; omega
  | [a, b, c], hdvd, _ => by simp only [List.length_cons, List.length_nil] at hdvd; omega
  | a :: b :: c :: d :: rest, hdvd, hws => by
    intro rk hrk
    simp only [keyExpansion.chunks4w, List.map_cons, List.mem_cons] at hrk
    rcases hrk with rfl | hrk
    · have la := (hws a (by simp)).1
      have lb := (hws b (by simp)).1
      have lc := (hws c (by simp)).1
      have ld := (hws d (by simp)).1
      constructor
      · simp [la, lb, lc, ld]
      · intro x hx
        have hx' : x ∈ a ∨ x ∈ b ∨ x ∈ c ∨ x ∈ d := by
          simp only [List.flatten_cons, List.flatten_nil, List.append_nil,
            List.mem_append] at hx
          tauto
        rcases hx' with h | h | h | h
        · exact (hws a (by simp)).2 x h
        · exact (hws b (by simp)).2 x h
        · exact (hws c (by simp)).2 x h
        · exact (hws d (by simp)).2 x h
    · apply chunks4w_wf rest _ (fun w hw => hws w (by simp [hw])) rk hrk
      simp only [List.length_cons] at hdvd
      omega

theorem keyExpansion_wf {key : List Nat}
    (hlen : key.length = 16 ∨ key.length = 24 ∨ key.length = 32)
    (hb : ∀ b ∈ key, b < 256) : WfKeys (keyExpansion key) := by
  have h4dvd : 4 ∣ key.length := by rcases hlen with h | h | h <;> rw [h] <;> decide
  have hnk : 0 < key.length / 4 := by rcases hlen with h | h | h <;> rw [h] <;> decide
  have hws0 : ∀ w ∈ chunks 4 key, w.length = 4 ∧ ∀ b ∈ w, b < 256 := by
    intro w hw
    exact ⟨chunks_mem_length (by decide) key h4dvd w hw,
      fun x hx => hb x (chunks_mem_subset (by decide) key w hw x hx)⟩
  have hcount : (chunks 4 key).length = key.length / 4 := by
    have := flatten_length_of_all (chunks 4 key)
      (chunks_mem_length (by decide : (0:Nat) < 4) key h4dvd)
    rw [chunks_flatten (by decide) key] at this
    omega
  have hexp := expandWords_wf (4 * (key.length / 4 + 6 + 1) - key.length / 4)
    (chunks 4 key) hnk (by omega) hws0
  intro rk hrk
  have hdvd2 : 4 ∣ (expandWords (key.length / 4) (chunks 4 key)
      (4 * (key.length / 4 + 6 + 1) - key.length / 4)).length := by
    rw [hexp.2, hcount]
    rcases hlen with h | h | h <;> rw [h] <;> decide
  have hmem : rk ∈ List.map List.flatten (keyExpansion.chunks4w
      (expandWords (key.length / 4) (chunks 4 key)
        (4 * (key.length / 4 + 6 + 1) - key.length / 4))) := by
    simpa only [keyExpansion] using hrk
  exact chunks4w_wf _ hdvd2 hexp.1 rk hmem

/-! ### CBC, padding and hex lemmas -/

theorem cbcEncBlocks_length (rks : List (List Nat)) :
    ∀ (bs : List (List Nat)) (prev : List Nat),
      (cbcEncBlocks rks prev bs).length = bs.length
  | [], _ => rfl
  | b :: bs, prev => by
    simp only [cbcEncBlocks, List.length_cons]
    rw [cbcEncBlocks_length rks bs]

theorem cbcEncBlocks_wf {rks : List (List Nat)} (hrks : WfKeys rks) :
    ∀ (bs : List (List Nat)) (prev : List Nat), WfState prev → (∀ b ∈ bs, WfState b) →
      ∀ c ∈ cbcEncBlocks rks prev bs, WfState c
  | [], _, _, _ => by simp [cbcEncBlocks]
  | b :: bs, prev, hprev, hbs => by
    intro c hc
    simp only [cbcEncBlocks, List.mem_cons] at hc
    have hb : WfState b := hbs b (by simp)
    have hcwf : WfState (cipher rks (ark prev b)) :=
      cipher_wf hrks (ark_wf hb hprev.1 hprev.2)
    rcases hc with rfl | hc
    · exact hcwf
    · exact cbcEncBlocks_wf hrks bs _ hcwf (fun x hx => hbs x (by simp [hx])) c hc

theorem cbcDec_cbcEnc {rks : List (List Nat)} (hrks : WfKeys rks) :
    ∀ (bs : List (List Nat)) (prev : List Nat), WfState prev → (∀ b ∈ bs, WfState b) →
      cbcDecBlocks rks prev (cbcEncBlocks rks prev bs) = bs
  | [], _, _, _ => rfl
  | b :: bs, prev, hprev, hbs => by
    have hb : WfState b := hbs b (by simp)
    have harkb : WfState (ark prev b) := ark_wf hb hprev.1 hprev.2
    have hcwf : WfState (cipher rks (ark prev b)) := cipher_wf hrks harkb
    simp only [cbcEncBlocks, cbcDecBlocks, List.cons.injEq]
    constructor
    · rw [invCipher_cipher hrks harkb, ark_ark b prev (by rw [hb.1, hprev.1])]
    · exact cbcDec_cbcEnc hrks bs _ hcwf (fun x hx => hbs x (by simp [hx]))

theorem replicate_getLast? {x : Nat} : ∀ (m : Nat), 0 < m →
    (List.replicate m x).getLast? = some x
  | 1, _ => rfl
  | m + 2, _ => by
    rw [List.replicate_succ, List.getLast?_cons, replicate_getLast? (m + 1) (by omega)]
    rfl

theorem replicate_all_eq {x : Nat} (m : Nat) :
    (List.replicate m x).all (fun b => b == x) = true := by
  rw [List.all_eq_true]
  intro b hb
  rw [List.eq_of_mem_replicate hb]
  simp

theorem pkcs7Unpad_pad (p : List Nat) : pkcs7Unpad (pkcs7Pad p) = some p := by
  have hr : p.length % 16 < 16 := Nat.mod_lt _ (by omega)
  set n := 16 - p.length % 16 with hn
  have hn1 : 1 ≤ n := by omega
  have hn16 : n ≤ 16 := by omega
  unfold pkcs7Unpad pkcs7Pad
  rw [← hn]
  have hlast : (p ++ List.replicate n n).getLast? = some n := by
    rw [List.getLast?_append, replicate_getLast? n (by omega)]
    rfl
  rw [hlast]
  have hcond : ¬(n = 0 ∨ 16 < n) := by omega
  simp only [hcond, if_false]
  have hlen : (p ++ List.replicate n n).length = p.length + n := by simp
  have hdrop : (p ++ List.replicate n n).drop ((p ++ List.replicate n n).length - n) =
      List.replicate n n := by
    rw [hlen, Nat.add_sub_cancel, List.drop_left]
  rw [hdrop, replicate_all_eq, if_pos rfl]
  rw [hlen, Nat.add_sub_cancel, List.take_left]

theorem hexVal_hexDigit {x : Nat} (h : x < 16) : hexVal (hexDigit x) = some x :=
  (by decide : ∀ y : Fin 16, hexVal (hexDigit y.val) = some y.val) ⟨x, h⟩

theorem hexEncode_cons (b : Nat) (t : List Nat) :
    hexEncode (b :: t) = hexDigit (b / 16) :: hexDigit (b % 16) :: hexEncode t := by
  simp [hexEncode]

theorem hexEncode_length : ∀ (bs : List Nat), (hexEncode bs).length = 2 * bs.length
  | [] => rfl
  | b :: t => by
    rw [hexEncode_cons]
    simp only [List.length_cons, hexEncode_length t]
    omega

theorem hexDecodeGo_hexEncode : ∀ (bs : List Nat), (∀ b ∈ bs, b < 256) →
    ∀ idx, hexDecodeGo (hexEncode bs) idx = .ok bs
  | [], _, _ => rfl
  | b :: t, hb, idx => by
    have hblt := hb b (by simp)
    have hb' : 16 * (b / 16) + b % 16 = b := by omega
    rw [hexEncode_cons]
    simp only [hexDecodeGo]
    rw [hexVal_hexDigit (by omega), hexVal_hexDigit (by omega),
      hexDecodeGo_hexEncode t (fun x hx => hb x (by simp [hx])) (idx + 2)]
    show Except.ok ((16 * (b / 16) + b % 16) :: t) = Except.ok (b :: t)
    rw [hb']

theorem hexDecode_hexEncode (bs : List Nat) (h : ∀ b ∈ bs, b < 256) :
    hexDecode (hexEncode bs) = .ok bs := by
  unfold hexDecode
  rw [hexEncode_length]
  simp only [Nat.mul_mod_right]
  rw [if_neg (by omega)]
  exact hexDecodeGo_hexEncode bs h 0

/-! ### Round trip of decrypt_aes_cbc over the modelled encryption -/

theorem aesCbcEncrypt_roundtrip_core (key p : List Nat)
    (hk : key.length = 16 ∨ key.length = 24 ∨ key.length = 32)
    (hkb : ∀ b ∈ key, b < 256) (hpb : ∀ b ∈ p, b < 256) :
    decryptPadded (keyExpansion key) (key.take 16) (aesCbcEncrypt key p) =
      some p := by
  have hrks := keyExpansion_wf hk hkb
  have hklen16 : 16 ≤ key.length := by rcases hk with h | h | h <;> omega
  have hiv : WfState (key.take 16) := by
    constructor
    · rw [List.length_take]; omega
    · exact fun b hb => hkb b (List.take_subset 16 key hb)
  have hr : p.length % 16 < 16 := Nat.mod_lt _ (by omega)
  have hpadlen : (pkcs7Pad p).length = p.length + (16 - p.length % 16) := by
    simp [pkcs7Pad]
  have hpadmod : (pkcs7Pad p).length % 16 = 0 := by rw [hpadlen]; omega
  have hpadpos : 0 < (pkcs7Pad p).length := by rw [hpadlen]; omega
  have hpadbytes : ∀ b ∈ pkcs7Pad p, b < 256 := by
    intro b hb
    rcases List.mem_append.mp hb with hb | hb
    · exact hpb b hb
    · have := List.eq_of_mem_replicate hb
      omega
  have hdvd : (16 : Nat) ∣ (pkcs7Pad p).length := Nat.dvd_of_mod_eq_zero hpadmod
  have hchlen := chunks_mem_length (by decide : (0:Nat) < 16) (pkcs7Pad p) hdvd
  have hchwf : ∀ c ∈ chunks 16 (pkcs7Pad p), WfState c := fun c hc =>
    ⟨hchlen c hc, fun x hx =>
      hpadbytes x (chunks_mem_subset (by decide) (pkcs7Pad p) c hc x hx)⟩
  have hencwf : ∀ c ∈ cbcEncBlocks (keyExpansion key) (key.take 16)
      (chunks 16 (pkcs7Pad p)), WfState c :=
    cbcEncBlocks_wf hrks _ _ hiv hchwf
  have henclen : ∀ c ∈ cbcEncBlocks (keyExpansion key) (key.take 16)
      (chunks 16 (pkcs7Pad p)), c.length = 16 := fun c hc => (hencwf c hc).1
  have hctlen : (aesCbcEncrypt key p).length =
      16 * (chunks 16 (pkcs7Pad p)).length := by
    unfold aesCbcEncrypt
    rw [flatten_length_of_all _ henclen, cbcEncBlocks_length]
  have hchcount : 0 < (chunks 16 (pkcs7Pad p)).length := by
    by_contra hzero
    have h0 : (chunks 16 (pkcs7Pad p)).length = 0 := by omega
    have := flatten_length_of_all _ hchlen
    rw [chunks_flatten (by decide) (pkcs7Pad p), h0] at this
    omega
  have hctmod : (aesCbcEncrypt key p).length % 16 = 0 := by
    rw [hctlen]; omega
  have hctne : aesCbcEncrypt key p ≠ [] := by
    have hpos : 0 < (aesCbcEncrypt key p).length := by
      rw [hctlen]
      exact Nat.mul_pos (by omega) hchcount
    exact List.length_pos.mp hpos
  unfold decryptPadded
  rw [if_pos ⟨hctmod, hctne⟩]
  unfold aesCbcEncrypt
  rw [chunks_of_flatten (by decide) _ henclen]
  rw [cbcDec_cbcEnc hrks _ _ hiv hchwf]
  rw [chunks_flatten (by decide) (pkcs7Pad p)]
  exact pkcs7Unpad_pad p

theorem decrypt_aes_cbc_roundtrip_core (key p : List Nat)
    (hk : key.length = 16 ∨ key.length = 24 ∨ key.length = 32)
    (hkb : ∀ b ∈ key, b < 256) (hpb : ∀ b ∈ p, b < 256)
    (hutf : validUtf8 p = true) :
    decrypt_aes_cbc (hexEncode (aesCbcEncrypt key p)) key = .ok p := by
  have hrks := keyExpansion_wf hk hkb
  have hiv16 : 16 ≤ key.length := by rcases hk with h | h | h <;> omega
  have hchwfct : ∀ b ∈ aesCbcEncrypt key p, b < 256 := by
    intro b hb
    unfold aesCbcEncrypt at hb
    obtain ⟨c, hc, hbc⟩ := List.mem_flatten.mp hb
    have hpadbytes : ∀ x ∈ pkcs7Pad p, x < 256 := by
      intro x hx
      rcases List.mem_append.mp hx with hx | hx
      · exact hpb x hx
      · have := List.eq_of_mem_replicate hx
        omega
    have hpadmod : (pkcs7Pad p).length % 16 = 0 := by
      have : p.length % 16 < 16 := Nat.mod_lt _ (by omega)
      simp only [pkcs7Pad, List.length_append, List.length_replicate]
      omega
    have hchwf : ∀ c ∈ chunks 16 (pkcs7Pad p), WfState c := fun c hc =>
      ⟨chunks_mem_length (by decide) _ (Nat.dvd_of_mod_eq_zero hpadmod) c hc,
        fun x hx => hpadbytes x (chunks_mem_subset (by decide) _ c hc x hx)⟩
    have hiv : WfState (key.take 16) := by
      constructor
      · rw [List.length_take]; omega
      · exact fun x hx => hkb x (List.take_subset 16 key hx)
    exact (cbcEncBlocks_wf hrks _ _ hiv hchwf c hc).2 b hbc
  unfold decrypt_aes_cbc
  rw [hexDecode_hexEncode _ hchwfct]
  simp only [if_neg (show ¬ key.length < 16 by omega), if_pos hk]
  rw [aesCbcEncrypt_roundtrip_core key p hk hkb hpb]
  show (if validUtf8 p = true then (Except.ok p : Except EcError (List Nat))
    else Except.error (EcError.decryptionError
      ("UTF-8 conversion failed: " ++ utf8ErrorMsg))) = Except.ok p
  rw [if_pos hutf]

/-! ## Claim C1 -/

/-- C1: for every key of byte length 16, 24, or 32 and every plaintext, if
the ciphertext is produced by AES-CBC encryption with PKCS#7 padding under
that key with IV equal to the first 16 bytes of the key, then
`decrypt_aes_cbc` applied to the hex encoding of that ciphertext and that
key returns exactly the original plaintext. -/
theorem decrypt_inverts_encrypt (key p : List Nat)
    (hk : key.length = 16 ∨ key.length = 24 ∨ key.length = 32)
    (hkb : ∀ b ∈ key, b < 256) (hpb : ∀ b ∈ p, b < 256)
    (hutf : validUtf8 p = true) :
    decrypt_aes_cbc (hexEncode (aesCbcEncrypt key p)) key = .ok p :=
  decrypt_aes_cbc_roundtrip_core key p hk hkb hpb hutf

/-- Witness for C1 at a concrete 16-byte key and the two-byte plaintext
`"hi"`. -/
theorem decrypt_inverts_encrypt_witness :
    decrypt_aes_cbc
      (hexEncode (aesCbcEncrypt
        [48, 49, 50, 51, 52, 53, 54, 55, 56, 57, 97, 98, 99, 100, 101, 102]
        [104, 105]))
      [48, 49, 50, 51, 52, 53, 54, 55, 56, 57, 97, 98, 99, 100, 101, 102] =
      .ok [104, 105] :=
  decrypt_inverts_encrypt
    [48, 49, 50, 51, 52, 53, 54, 55, 56, 57, 97, 98, 99, 100, 101, 102]
    [104, 105] (by decide) (by decide) (by decide) (by decide)


/-! ## Claims C5 and C6 -/

theorem hexDecodeGo_fails : ∀ (ct : List Nat) (idx : Nat), (∃ c ∈ ct, hexVal c = none) →
    ∃ e, hexDecodeGo ct idx = .error e
  | [], _, h => by simp at h
  | [c], _, _ => ⟨.oddLength, rfl⟩
  | c1 :: c2 :: rest, idx, h => by
    cases hc1 : hexVal c1 with
    | none => exact ⟨.invalidHexCharacter c1 idx, by simp [hexDecodeGo, hc1]⟩
    | some v1 =>
      cases hc2 : hexVal c2 with
      | none => exact ⟨.invalidHexCharacter c2 (idx + 1), by simp [hexDecodeGo, hc1, hc2]⟩
      | some v2 =>
        have hrest : ∃ c ∈ rest, hexVal c = none := by
          obtain ⟨c, hc, hnone⟩ := h
          rcases List.mem_cons.mp hc with rfl | hc
          · rw [hc1] at hnone; cases hnone
          · rcases List.mem_cons.mp hc with rfl | hc
            · rw [hc2] at hnone; cases hnone
            · exact ⟨c, hc, hnone⟩
        obtain ⟨e, he⟩ := hexDecodeGo_fails rest (idx + 2) hrest
        exact ⟨e, by simp [hexDecodeGo, hc1, hc2, he, Except.map]⟩

theorem hexDecode_fails (ct : List Nat)
    (h : ct.length % 2 = 1 ∨ ∃ c ∈ ct, hexVal c = none) :
    ∃ e, hexDecode ct = .error e := by
  unfold hexDecode
  by_cases hodd : ct.length % 2 = 1
  · exact ⟨.oddLength, by rw [if_pos hodd]⟩
  · rcases h with h | h
    · exact absurd h hodd
    · rw [if_neg hodd]
      exact hexDecodeGo_fails ct 0 h

/-- C6: for every key and every ciphertext hex string that contains a
non-hexadecimal character or has odd length, `decrypt_aes_cbc` fails with a
hex-decoding error (`InvalidEncoding`), before any cipher operation: the
outcome is the same for every key, including well-formed ones, because
`hex::decode` runs first. -/
theorem decrypt_invalid_hex_fails (ct key : List Nat)
    (h : ct.length % 2 = 1 ∨ ∃ c ∈ ct, hexVal c = none) :
    ∃ e, decrypt_aes_cbc ct key = .error (.hexError e) := by
  obtain ⟨e, he⟩ := hexDecode_fails ct h
  refine ⟨e, ?_⟩
  unfold decrypt_aes_cbc
  rw [he]

/-- Witness for C6: the two-character hex string `"g0"` fails for a valid
16-byte key. -/
theorem decrypt_invalid_hex_fails_witness :
    ∃ e, decrypt_aes_cbc [103, 48] (List.replicate 16 97) = .error (.hexError e) :=
  decrypt_invalid_hex_fails [103, 48] (List.replicate 16 97)
    (Or.inr ⟨103, by decide, rfl⟩)

/-- C5 counterexample: the claim quantifies over every ciphertext, but on a
ciphertext that is not valid hex (here `"zz"`) and a 15-byte key, decrypt
fails with the hex-decoding error (`InvalidEncoding`), not with the
key-length error (`UnsupportedKeySize`), because `hex::decode` runs before
the key-length check. -/
theorem decrypt_bad_key_length_counterexample :
    decrypt_aes_cbc [122, 122] (List.replicate 15 97) =
      .error (.hexError (.invalidHexCharacter 122 0)) ∧
    decrypt_aes_cbc [122, 122] (List.replicate 15 97) ≠
      .error (.decryptionError ("Key too short: " ++ toString (15 : Nat) ++
        " bytes (need at least 16)")) := by
  constructor
  · decide
  · decide

/-- C5 (amended): for every ciphertext that hex-decodes successfully and
every key whose byte length is not 16, 24, or 32, `decrypt_aes_cbc` fails
with the key-length error — "Key too short" below 16 bytes, "Invalid key
length" otherwise — and the result does not depend on the ciphertext, so no
cipher operation is attempted. -/
theorem decrypt_bad_key_length (ct key bs : List Nat)
    (hhex : hexDecode ct = .ok bs)
    (h16 : key.length ≠ 16) (h24 : key.length ≠ 24) (h32 : key.length ≠ 32) :
    decrypt_aes_cbc ct key = .error (.decryptionError
      (if key.length < 16 then
        "Key too short: " ++ toString key.length ++ " bytes (need at least 16)"
       else
        "Invalid key length: " ++ toString key.length ++ " (must be 16, 24, or 32 bytes)")) := by
  unfold decrypt_aes_cbc
  rw [hhex]
  by_cases h : key.length < 16
  · simp [h]
  · simp [h, h16, h24, h32]

/-- Witness for C5 (amended): the empty ciphertext hex-decodes, and a
15-byte key yields the "Key too short" error. -/
theorem decrypt_bad_key_length_witness :
    decrypt_aes_cbc [] (List.replicate 15 97) =
      .error (.decryptionError "Key too short: 15 bytes (need at least 16)") :=
  (decrypt_bad_key_length [] (List.replicate 15 97) []
    (by decide) (by decide) (by decide) (by decide)).trans (by decide)


/-! ## Claims C7 and C4 -/

theorem descStep_ok_of (st : List Nat) (n : Nat) (keyOpt encOpt : Option (List Nat))
    (h : ∀ k ct, keyOpt = some k → encOpt = some ct → ∃ t, decrypt_aes_cbc ct k = .ok t) :
    ∃ s', descStep st n keyOpt encOpt = .ok s' := by
  cases keyOpt with
  | none => exact ⟨st, rfl⟩
  | some k =>
    cases encOpt with
    | none => exact ⟨st, rfl⟩
    | some ct =>
      obtain ⟨t, ht⟩ := h k ct rfl rfl
      refine ⟨st ++ (if st.isEmpty then [] else sepBytes n) ++ t, ?_⟩
      simp only [descStep, ht]

theorem except_bind_ok {e a b : Type} (x : a) (f : a → Except e b) :
    (Except.ok x >>= f) = f x := rfl

theorem except_bind_error {e a b : Type} (err : e) (f : a → Except e b) :
    ((Except.error err : Except e a) >>= f) = Except.error err := rfl

/-- C7: if decryption of any attempted part fails, assembly fails with the
first decryption failure in ascending part order (all attempted parts before
it decrypting successfully), and returns no document at all. -/
theorem fetch_description_first_failure (payload : EncryptedContent) (keys : QuestKeys)
    (n : Nat) (e : EcError) (ct k : List Nat)
    (hprev : ∀ m, m < n → ∀ ct' k', assemblySlot payload keys m = some (ct', k') →
      ∃ t, decrypt_aes_cbc ct' k' = .ok t)
    (hslot : assemblySlot payload keys n = some (ct, k))
    (hfail : decrypt_aes_cbc ct k = .error e) :
    fetch_description payload keys = .error e := by
  rcases n with _ | _ | _ | _ | m
  · simp [assemblySlot] at hslot
  · -- part 1 fails
    simp only [assemblySlot, Option.map_eq_some'] at hslot
    obtain ⟨ct1, hpart1, heq⟩ := hslot
    cases heq
    simp [fetch_description, descStep, hpart1, hfail, except_bind_error]
  · -- part 2 fails
    have hslot2 : keys.key2 = some k ∧ payload.part2 = some ct := by
      simp only [assemblySlot] at hslot
      cases hk2 : keys.key2 with
      | none => rw [hk2] at hslot; simp at hslot
      | some k2 =>
        cases hp2 : payload.part2 with
        | none => rw [hk2, hp2] at hslot; simp at hslot
        | some ct2 =>
          rw [hk2, hp2] at hslot
          simp at hslot
          exact ⟨by rw [hslot.2], by rw [hslot.1]⟩
    obtain ⟨s1, hs1⟩ := descStep_ok_of [] 1 (some keys.key1) payload.part1 (by
      intro k' ct' hk' hct'
      have := hprev 1 (by omega) ct' keys.key1 (by simp [assemblySlot, hct'])
      cases hk'
      exact this)
    simp only [fetch_description, hs1, hslot2.1, hslot2.2, except_bind_ok]
    simp [descStep, hfail, except_bind_error]
  · -- part 3 fails
    have hslot3 : keys.key3 = some k ∧ payload.part3 = some ct := by
      simp only [assemblySlot] at hslot
      cases hk3 : keys.key3 with
      | none => rw [hk3] at hslot; simp at hslot
      | some k3 =>
        cases hp3 : payload.part3 with
        | none => rw [hk3, hp3] at hslot; simp at hslot
        | some ct3 =>
          rw [hk3, hp3] at hslot
          simp at hslot
          exact ⟨by rw [hslot.2], by rw [hslot.1]⟩
    obtain ⟨s1, hs1⟩ := descStep_ok_of [] 1 (some keys.key1) payload.part1 (by
      intro k' ct' hk' hct'
      have := hprev 1 (by omega) ct' keys.key1 (by simp [assemblySlot, hct'])
      cases hk'
      exact this)
    obtain ⟨s2, hs2⟩ := descStep_ok_of s1 2 keys.key2 payload.part2 (by
      intro k' ct' hk' hct'
      exact hprev 2 (by omega) ct' k' (by simp [assemblySlot, hk', hct']))
    simp only [fetch_description, hs1, hs2, hslot3.1, hslot3.2, except_bind_ok]
    simp [descStep, hfail, except_bind_error]
  · simp [assemblySlot] at hslot

/-- Witness for C7: a payload whose part-1 ciphertext is invalid hex aborts
the whole assembly with that hex error. -/
theorem fetch_description_first_failure_witness :
    fetch_description ⟨some [122, 122], none, none⟩
      ⟨List.replicate 16 97, none, none⟩ =
      .error (.hexError (.invalidHexCharacter 122 0)) :=
  fetch_description_first_failure ⟨some [122, 122], none, none⟩
    ⟨List.replicate 16 97, none, none⟩ 1
    (.hexError (.invalidHexCharacter 122 0)) [122, 122] (List.replicate 16 97)
    (by intro m hm ct' k' hs; interval_cases m; · simp [assemblySlot] at hs)
    (by decide) (by decide)

/-- C4 counterexample: a legacy payload (body `"zz"`, whose first
non-whitespace byte is not `{`) requested for part 2 when `key2` is absent
fails with the key-resolution error; it is not decrypted with `key1` as the
claim states (decryption with `key1` would give a hex error instead). -/
theorem fetch_input_legacy_part2_counterexample :
    (skipWs [122, 122]).head? ≠ some 123 ∧
    fetch_input_legacy [122, 122] ⟨List.replicate 16 97, none, none⟩ 2 =
      .error (.decryptionError "Part 2 key not available yet") ∧
    fetch_input_legacy [122, 122] ⟨List.replicate 16 97, none, none⟩ 2 ≠
      decrypt_aes_cbc (trimQuotes [122, 122]) (List.replicate 16 97) := by
  refine ⟨by decide, by decide, by decide⟩

/-- C4 (amended): for every legacy payload, `fetch_input` decrypts the
quote-trimmed body with the key of the REQUESTED part (which is `key1`
exactly when part 1 is requested) and returns that plaintext alone as the
document, with no separator added. -/
theorem fetch_input_legacy_uses_requested_key (body : List Nat) (keys : QuestKeys)
    (part : Int) (k p : List Nat)
    (hkey : keys.get_key part = .ok k)
    (hdec : decrypt_aes_cbc (trimQuotes body) k = .ok p) :
    fetch_input_legacy body keys part = .ok p ∧ (part = 1 → k = keys.key1) := by
  constructor
  · simp [fetch_input_legacy, hkey, hdec]
  · intro h1
    subst h1
    simp [QuestKeys.get_key] at hkey
    exact hkey.symm

theorem dropWhile_eq_self_of_false {p : Nat → Bool} :
    ∀ (s : List Nat), (∀ b ∈ s, p b = false) → s.dropWhile p = s
  | [], _ => rfl
  | b :: t, h => by
    rw [List.dropWhile_cons, h b (by simp)]
    simp

theorem hexDigit_ne_34 (x : Nat) : (hexDigit x == 34) = false := by
  unfold hexDigit
  split <;> (rw [beq_eq_false_iff_ne]; omega)

theorem hexEncode_ne_34 (bs : List Nat) : ∀ b ∈ hexEncode bs, (b == 34) = false := by
  intro b hb
  unfold hexEncode at hb
  obtain ⟨c, hc, hbc⟩ := List.mem_flatten.mp hb
  obtain ⟨x, _, rfl⟩ := List.mem_map.mp hc
  simp only [List.mem_cons, List.not_mem_nil, or_false] at hbc
  rcases hbc with rfl | rfl <;> exact hexDigit_ne_34 _

theorem trimQuotes_hexEncode (bs : List Nat) : trimQuotes (hexEncode bs) = hexEncode bs := by
  unfold trimQuotes
  rw [dropWhile_eq_self_of_false _ (hexEncode_ne_34 bs)]
  rw [dropWhile_eq_self_of_false _ (fun b hb =>
    hexEncode_ne_34 bs b (List.mem_reverse.mp hb))]
  rw [List.reverse_reverse]

/-- Witness for C4 (amended): at a concrete 16-byte key and plaintext
`"hi"`, with part 1 requested, the legacy path returns exactly the
plaintext. -/
theorem fetch_input_legacy_uses_requested_key_witness :
    fetch_input_legacy
      (hexEncode (aesCbcEncrypt
        [48, 49, 50, 51, 52, 53, 54, 55, 56, 57, 97, 98, 99, 100, 101, 102] [104, 105]))
      ⟨[48, 49, 50, 51, 52, 53, 54, 55, 56, 57, 97, 98, 99, 100, 101, 102], none, none⟩ 1 =
      .ok [104, 105] ∧
    ((1 : Int) = 1 →
      [48, 49, 50, 51, 52, 53, 54, 55, 56, 57, 97, 98, 99, 100, 101, 102] =
      (⟨[48, 49, 50, 51, 52, 53, 54, 55, 56, 57, 97, 98, 99, 100, 101, 102],
        none, none⟩ : QuestKeys).key1) :=
  fetch_input_legacy_uses_requested_key _ _ 1 _ _
    (by decide)
    (by rw [trimQuotes_hexEncode]
        exact decrypt_aes_cbc_roundtrip_core _ [104, 105]
          (by decide) (by decide) (by decide) (by decide))


/-! ## Containment infrastructure for separator markers -/

theorem leadsWith_iff : ∀ (n h : List Nat), leadsWith n h = true ↔ ∃ v, h = n ++ v
  | [], h => by simp [leadsWith]
  | a :: n, [] => by simp [leadsWith]
  | a :: n, b :: h => by
    simp only [leadsWith, Bool.and_eq_true, beq_iff_eq, leadsWith_iff n h]
    constructor
    · rintro ⟨rfl, v, rfl⟩
      exact ⟨v, rfl⟩
    · rintro ⟨v, hv⟩
      rw [List.cons_append] at hv
      cases hv
      exact ⟨rfl, v, rfl⟩

theorem containsSeq_iff : ∀ (n h : List Nat), containsSeq n h = true ↔ occursIn n h
  | n, [] => by
    simp only [containsSeq, leadsWith_iff, occursIn]
    constructor
    · rintro ⟨v, hv⟩
      rcases List.append_eq_nil.mp hv.symm with ⟨rfl, rfl⟩
      exact ⟨[], [], by simp⟩
    · rintro ⟨u, v, huv⟩
      rcases List.append_eq_nil.mp ((List.append_assoc u n v) ▸ huv).symm with ⟨rfl, h2⟩
      rcases List.append_eq_nil.mp h2 with ⟨rfl, rfl⟩
      exact ⟨[], rfl⟩
  | n, b :: t => by
    simp only [containsSeq, Bool.or_eq_true, leadsWith_iff, containsSeq_iff n t, occursIn]
    constructor
    · rintro (⟨v, hv⟩ | ⟨u, v, huv⟩)
      · exact ⟨[], v, by simp [hv]⟩
      · exact ⟨b :: u, v, by simp [huv]⟩
    · rintro ⟨u, v, huv⟩
      cases u with
      | nil => exact Or.inl ⟨v, by simpa using huv⟩
      | cons x u =>
        rw [List.cons_append, List.cons_append] at huv
        cases huv
        exact Or.inr ⟨u, v, rfl⟩

theorem occursIn_append_left {n a : List Nat} (b : List Nat) (h : occursIn n a) :
    occursIn n (a ++ b) := by
  obtain ⟨u, v, rfl⟩ := h
  exact ⟨u, v ++ b, by simp⟩

theorem occursIn_append_right {n b : List Nat} (a : List Nat) (h : occursIn n b) :
    occursIn n (a ++ b) := by
  obtain ⟨u, v, rfl⟩ := h
  exact ⟨a ++ u, v, by simp⟩

theorem occursIn_self (n : List Nat) : occursIn n n := ⟨[], [], by simp⟩

theorem occursIn_split {n a b : List Nat} (h : occursIn n (a ++ b)) :
    occursIn n a ∨ occursIn n b ∨
      ∃ s t, n = s ++ t ∧ s ≠ [] ∧ t ≠ [] ∧ (∃ u, a = u ++ s) ∧ (∃ v, b = t ++ v) := by
  obtain ⟨u, v, huv⟩ := h
  have htake : a = ((u ++ n) ++ v).take a.length := by
    rw [← huv, List.take_left]
  have hdrop : b = ((u ++ n) ++ v).drop a.length := by
    rw [← huv, List.drop_left]
  rcases Nat.lt_or_ge a.length (u.length + 1) with hua | hua
  · -- a.length ≤ u.length : the occurrence lies in b
    have hle : a.length ≤ u.length := by omega
    right; left
    refine ⟨u.drop a.length, v, ?_⟩
    rw [hdrop, List.append_assoc, List.drop_append_eq_append_drop,
      Nat.sub_eq_zero_of_le hle, List.drop_zero, List.append_assoc]
  · rcases Nat.lt_or_ge a.length (u.length + n.length) with hstrand | hin
    · -- u.length < a.length ≤ u.length + n.length : straddle
      have hua' : u.length < a.length := by omega
      have hmid : a.length < u.length + n.length := hstrand
      right; right
      refine ⟨n.take (a.length - u.length), n.drop (a.length - u.length),
        (List.take_append_drop _ n).symm, ?_, ?_, ⟨u, ?_⟩, ⟨v, ?_⟩⟩
      · have hslen : 0 < (n.take (a.length - u.length)).length := by
          rw [List.length_take, lt_min_iff]
          constructor <;> omega
        intro hnil
        rw [hnil] at hslen
        simp at hslen
      · intro hnil
        have := congrArg List.length hnil
        rw [List.length_drop, List.length_nil] at this
        omega
      · calc a = ((u ++ n) ++ v).take a.length := htake
          _ = u ++ n.take (a.length - u.length) := by
            rw [List.take_append_eq_append_take, List.length_append,
              Nat.sub_eq_zero_of_le (show a.length ≤ u.length + n.length by omega),
              List.take_zero, List.append_nil, List.take_append_eq_append_take,
              List.take_of_length_le (show u.length ≤ a.length by omega)]
      · rw [hdrop, List.drop_append_eq_append_drop,
          List.drop_append_eq_append_drop,
          List.drop_eq_nil_of_le (show u.length ≤ a.length by omega),
          List.nil_append, List.length_append,
          Nat.sub_eq_zero_of_le (show a.length ≤ u.length + n.length by omega),
          List.drop_zero]
    · -- the occurrence lies entirely in a
      left
      refine ⟨u, v.take (a.length - (u.length + n.length)), ?_⟩
      calc a = ((u ++ n) ++ v).take a.length := htake
        _ = u ++ n ++ v.take (a.length - (u.length + n.length)) := by
          rw [List.take_append_eq_append_take,
            List.take_of_length_le (show (u ++ n).length ≤ a.length by
              rw [List.length_append]; omega),
            List.length_append]

theorem no_straddle_left {n a b : List Nat} (hn : ∀ c ∈ n, c ≠ 10)
    (hb : b.head? = some 10) (h : occursIn n (a ++ b)) :
    occursIn n a ∨ occursIn n b := by
  rcases occursIn_split h with h | h | ⟨s, t, hnst, hs, ht, ⟨u, ha⟩, ⟨v, hbv⟩⟩
  · exact Or.inl h
  · exact Or.inr h
  · exfalso
    obtain ⟨c, t', rfl⟩ : ∃ c t', t = c :: t' := by
      cases t with
      | nil => exact absurd rfl ht
      | cons c t' => exact ⟨c, t', rfl⟩
    have hc10 : c = 10 := by
      rw [hbv] at hb
      simpa using hb
    have hcn : c ∈ n := by
      rw [hnst]
      exact List.mem_append.mpr (Or.inr (by simp))
    exact hn c hcn hc10

theorem no_straddle_right {n a b : List Nat} (hn : ∀ c ∈ n, c ≠ 10)
    (ha : a.getLast? = some 10) (h : occursIn n (a ++ b)) :
    occursIn n a ∨ occursIn n b := by
  rcases occursIn_split h with h | h | ⟨s, t, hnst, hs, ht, ⟨u, hau⟩, ⟨v, hbv⟩⟩
  · exact Or.inl h
  · exact Or.inr h
  · exfalso
    have h10 : s.getLast hs = 10 := by
      rw [hau, List.getLast?_append, List.getLast?_eq_getLast s hs] at ha
      simpa using ha
    have hmem : s.getLast hs ∈ n := by
      rw [hnst]
      exact List.mem_append.mpr (Or.inl (List.getLast_mem hs))
    exact hn _ hmem h10

theorem not_occursIn_append {n a b : List Nat} (hn : ∀ c ∈ n, c ≠ 10)
    (hsplit : b.head? = some 10 ∨ a.getLast? = some 10)
    (hna : ¬ occursIn n a) (hnb : ¬ occursIn n b) : ¬ occursIn n (a ++ b) := by
  intro h
  rcases hsplit with hb | hal
  · rcases no_straddle_left hn hb h with h' | h' <;> [exact hna h'; exact hnb h']
  · rcases no_straddle_right hn hal h with h' | h' <;> [exact hna h'; exact hnb h']

theorem not_occursIn_of_containsSeq_false {n h : List Nat}
    (hc : containsSeq n h = false) : ¬ occursIn n h := by
  intro hocc
  rw [← containsSeq_iff] at hocc
  rw [hc] at hocc
  cases hocc

/-! ## Claim C8 -/

/-- C8 counterexample: decrypted part text can itself contain the literal
part-3 marker.  With part 1's plaintext equal to `" PART 3 "`, the assembled
two-part document (key3 absent) does contain a part-3 marker, contradicting
the claim's unconditional "no PART 3 separator". -/
theorem fetch_description_two_parts_counterexample :
    fetch_description
      ⟨some (hexEncode (aesCbcEncrypt
          [48, 49, 50, 51, 52, 53, 54, 55, 56, 57, 97, 98, 99, 100, 101, 102] part3Marker)),
        some (hexEncode (aesCbcEncrypt
          [48, 49, 50, 51, 52, 53, 54, 55, 56, 57, 97, 98, 99, 100, 101, 102] [104, 105])),
        none⟩
      ⟨[48, 49, 50, 51, 52, 53, 54, 55, 56, 57, 97, 98, 99, 100, 101, 102],
        some [48, 49, 50, 51, 52, 53, 54, 55, 56, 57, 97, 98, 99, 100, 101, 102], none⟩ =
      .ok (part3Marker ++ sepBytes 2 ++ [104, 105]) ∧
    occursIn part3Marker (part3Marker ++ sepBytes 2 ++ [104, 105]) := by
  constructor
  · have hd1 : decrypt_aes_cbc
        (hexEncode (aesCbcEncrypt
          [48, 49, 50, 51, 52, 53, 54, 55, 56, 57, 97, 98, 99, 100, 101, 102] part3Marker))
        [48, 49, 50, 51, 52, 53, 54, 55, 56, 57, 97, 98, 99, 100, 101, 102] =
        .ok part3Marker :=
      decrypt_aes_cbc_roundtrip_core _ _ (by decide) (by decide) (by decide) (by decide)
    have hd2 : decrypt_aes_cbc
        (hexEncode (aesCbcEncrypt
          [48, 49, 50, 51, 52, 53, 54, 55, 56, 57, 97, 98, 99, 100, 101, 102] [104, 105]))
        [48, 49, 50, 51, 52, 53, 54, 55, 56, 57, 97, 98, 99, 100, 101, 102] =
        .ok [104, 105] :=
      decrypt_aes_cbc_roundtrip_core _ _ (by decide) (by decide) (by decide) (by decide)
    simp only [part3Marker] at hd1
    simp [fetch_description, descStep, hd1, hd2, except_bind_ok, part3Marker]
  · exact occursIn_append_left _ (occursIn_append_left _ (occursIn_self _))

/-- C8 (amended): for a payload with ciphertexts for parts 1 and 2 and keys
with `key1`, `key2` present and `key3` absent, if both decryptions succeed,
part 1's text is nonempty, and neither decrypted text contains the literal
part-3 marker, then assembly returns the two-part document
`text1 ++ separator2 ++ text2`, which contains a PART 2 marker and no PART 3
marker. -/
theorem fetch_description_two_parts (e1 e2 k1 k2 t1 t2 : List Nat) (p3 : Option (List Nat))
    (h1 : decrypt_aes_cbc e1 k1 = .ok t1) (h2 : decrypt_aes_cbc e2 k2 = .ok t2)
    (ht1 : t1 ≠ [])
    (hm1 : ¬ occursIn part3Marker t1) (hm2 : ¬ occursIn part3Marker t2) :
    fetch_description ⟨some e1, some e2, p3⟩ ⟨k1, some k2, none⟩ =
      .ok (t1 ++ sepBytes 2 ++ t2) ∧
    occursIn part2Marker (t1 ++ sepBytes 2 ++ t2) ∧
    ¬ occursIn part3Marker (t1 ++ sepBytes 2 ++ t2) := by
  refine ⟨?_, ?_, ?_⟩
  · simp [fetch_description, descStep, h1, h2, except_bind_ok, ht1]
  · exact occursIn_append_left _
      (occursIn_append_right _ ((containsSeq_iff _ _).mp (by decide)))
  · rw [List.append_assoc]
    refine not_occursIn_append (by decide) (Or.inl ?_) hm1
      (not_occursIn_append (by decide) (Or.inr ?_)
        (not_occursIn_of_containsSeq_false (by decide)) hm2)
    · rw [List.head?_append, show (sepBytes 2).head? = some 10 from rfl]
      rfl
    · decide

/-- Witness for C8 (amended): a concrete two-part payload (key3 absent)
assembles to text1 ++ separator2 ++ text2 with a PART 2 marker and no
PART 3 marker. -/
theorem fetch_description_two_parts_witness :
    fetch_description
      ⟨some (hexEncode (aesCbcEncrypt
          [48, 49, 50, 51, 52, 53, 54, 55, 56, 57, 97, 98, 99, 100, 101, 102] [104, 105])),
        some (hexEncode (aesCbcEncrypt
          [48, 49, 50, 51, 52, 53, 54, 55, 56, 57, 97, 98, 99, 100, 101, 102] [106, 107])),
        none⟩
      ⟨[48, 49, 50, 51, 52, 53, 54, 55, 56, 57, 97, 98, 99, 100, 101, 102],
        some [48, 49, 50, 51, 52, 53, 54, 55, 56, 57, 97, 98, 99, 100, 101, 102], none⟩ =
      .ok ([104, 105] ++ sepBytes 2 ++ [106, 107]) ∧
    occursIn part2Marker ([104, 105] ++ sepBytes 2 ++ [106, 107]) ∧
    ¬ occursIn part3Marker ([104, 105] ++ sepBytes 2 ++ [106, 107]) :=
  fetch_description_two_parts _ _ _ _ [104, 105] [106, 107] none
    (decrypt_aes_cbc_roundtrip_core _ _ (by decide) (by decide) (by decide) (by decide))
    (decrypt_aes_cbc_roundtrip_core _ _ (by decide) (by decide) (by decide) (by decide))
    (by decide)
    (not_occursIn_of_containsSeq_false (by decide))
    (not_occursIn_of_containsSeq_false (by decide))

/-! ## Claim C3 -/

theorem except_bind_ok_inv {e a b' : Type} {x : Except e a} {f : a → Except e b'} {v : b'}
    (h : (x >>= f) = .ok v) : ∃ w, x = .ok w ∧ f w = .ok v := by
  cases x with
  | error err => rw [except_bind_error] at h; cases h
  | ok w => exact ⟨w, rfl, h⟩

theorem descStep_inv {st : List Nat} {n : Nat} {keyOpt encOpt : Option (List Nat)}
    {s' : List Nat} (h : descStep st n keyOpt encOpt = .ok s') :
    ((keyOpt = none ∨ encOpt = none) ∧ s' = st) ∨
    (∃ k ct d, keyOpt = some k ∧ encOpt = some ct ∧ decrypt_aes_cbc ct k = .ok d ∧
      s' = st ++ (if st.isEmpty then [] else sepBytes n) ++ d) := by
  cases keyOpt with
  | none => exact Or.inl ⟨Or.inl rfl, (Except.ok.inj h).symm⟩
  | some k =>
    cases encOpt with
    | none => exact Or.inl ⟨Or.inr rfl, (Except.ok.inj h).symm⟩
    | some ct =>
      cases hdec : decrypt_aes_cbc ct k with
      | error err =>
        simp only [descStep, hdec] at h
        exact Except.noConfusion h
      | ok d =>
        simp only [descStep, hdec] at h
        exact Or.inr ⟨k, ct, d, rfl, rfl, hdec, (Except.ok.inj h).symm⟩

theorem occursIn_mid {n t1 sep t2 : List Nat} (h : occursIn n sep) :
    occursIn n (t1 ++ sep ++ t2) :=
  occursIn_append_left _ (occursIn_append_right _ h)

theorem not_occursIn_three {n t1 sep t2 : List Nat} (hn : ∀ c ∈ n, c ≠ 10)
    (hhead : sep.head? = some 10) (hlast : sep.getLast? = some 10)
    (h1 : ¬ occursIn n t1) (hsep : ¬ occursIn n sep) (h2 : ¬ occursIn n t2) :
    ¬ occursIn n (t1 ++ sep ++ t2) := by
  rw [List.append_assoc]
  refine not_occursIn_append hn (Or.inl ?_) h1
    (not_occursIn_append hn (Or.inr hlast) hsep h2)
  rw [List.head?_append, hhead]
  rfl

/-- C3 (amended): whenever assembly succeeds, part 1 is attempted (its key
is always present and its payload entry exists), part 1's text is nonempty,
and no decrypted part text contains a literal separator marker, then the
assembled document contains the PART k separator marker (k = 2, 3) exactly
when part k was included at assembly time. -/
theorem fetch_description_marker_iff (payload : EncryptedContent) (keys : QuestKeys)
    (doc : List Nat)
    (hdoc : fetch_description payload keys = .ok doc)
    (hinc1 : (assemblySlot payload keys 1).isSome = true)
    (hclean : ∀ m ct k t, assemblySlot payload keys m = some (ct, k) →
      decrypt_aes_cbc ct k = .ok t →
      (m = 1 → t ≠ []) ∧ ¬ occursIn part2Marker t ∧ ¬ occursIn part3Marker t) :
    (occursIn part2Marker doc ↔ (assemblySlot payload keys 2).isSome = true) ∧
    (occursIn part3Marker doc ↔ (assemblySlot payload keys 3).isSome = true) := by
  obtain ⟨e1, hp1⟩ : ∃ e1, payload.part1 = some e1 := by
    cases hp : payload.part1 with
    | none => rw [show assemblySlot payload keys 1 = payload.part1.map
        (fun ct => (ct, keys.key1)) from rfl, hp] at hinc1; simp at hinc1
    | some e1 => exact ⟨e1, rfl⟩
  simp only [fetch_description] at hdoc
  obtain ⟨s1, hstep1, hdoc⟩ := except_bind_ok_inv hdoc
  obtain ⟨s2, hstep2, hdoc⟩ := except_bind_ok_inv hdoc
  obtain ⟨s3, hstep3, hdoc⟩ := except_bind_ok_inv hdoc
  have hs3doc : s3 = doc := Except.ok.inj hdoc
  -- step 1 must be a real decryption
  rcases descStep_inv hstep1 with ⟨hcase, -⟩ | ⟨k1, ct1, d1, hk1, hct1, hdec1, hs1⟩
  · rcases hcase with hcase | hcase
    · cases hcase
    · rw [hp1] at hcase; cases hcase
  · obtain rfl : keys.key1 = k1 := Option.some.inj hk1
    have hslot1 : assemblySlot payload keys 1 = some (ct1, keys.key1) := by
      simp [assemblySlot, hct1]
    obtain ⟨hne1, hcl1b, hcl1c⟩ := hclean 1 ct1 keys.key1 d1 hslot1 hdec1
    have hd1ne : d1 ≠ [] := hne1 rfl
    have hs1d : s1 = d1 := by simpa using hs1
    have hmk2 : ∀ c ∈ part2Marker, c ≠ 10 := by decide
    have hmk3 : ∀ c ∈ part3Marker, c ≠ 10 := by decide
    have hsep2h : (sepBytes 2).head? = some 10 := rfl
    have hsep3h : (sepBytes 3).head? = some 10 := rfl
    have hsep2l : (sepBytes 2).getLast? = some 10 := by decide
    have hsep3l : (sepBytes 3).getLast? = some 10 := by decide
    have h2in2 : occursIn part2Marker (sepBytes 2) := (containsSeq_iff _ _).mp (by decide)
    have h3in3 : occursIn part3Marker (sepBytes 3) := (containsSeq_iff _ _).mp (by decide)
    have h3no2 : ¬ occursIn part3Marker (sepBytes 2) :=
      not_occursIn_of_containsSeq_false (by decide)
    have h2no3 : ¬ occursIn part2Marker (sepBytes 3) :=
      not_occursIn_of_containsSeq_false (by decide)
    -- case on step 2
    rcases descStep_inv hstep2 with ⟨hcase2, hs2⟩ | ⟨k2, ct2, d2, hk2, hct2, hdec2, hs2⟩
    · -- part 2 not attempted
      have hslot2 : assemblySlot payload keys 2 = none := by
        rcases hcase2 with h | h
        · simp [assemblySlot, h]
        · cases hk : keys.key2 <;> simp [assemblySlot, h, hk]
      rcases descStep_inv hstep3 with ⟨hcase3, hs3⟩ | ⟨k3, ct3, d3, hk3, hct3, hdec3, hs3⟩
      · -- doc = d1
        have hslot3 : assemblySlot payload keys 3 = none := by
          rcases hcase3 with h | h
          · simp [assemblySlot, h]
          · cases hk : keys.key3 <;> simp [assemblySlot, h, hk]
        have hdoceq : doc = d1 := by rw [← hs3doc, hs3, hs2, hs1d]
        rw [hdoceq, hslot2, hslot3]
        exact ⟨by simp [hcl1b], by simp [hcl1c]⟩
      · -- doc = d1 ++ sep3 ++ d3
        have hslot3 : assemblySlot payload keys 3 = some (ct3, k3) := by
          simp [assemblySlot, hk3, hct3]
        obtain ⟨-, hcl3b, hcl3c⟩ := hclean 3 ct3 k3 d3 hslot3 hdec3
        have hdoceq : doc = d1 ++ sepBytes 3 ++ d3 := by
          rw [← hs3doc, hs3, hs2, hs1d, List.isEmpty_eq_false.mpr hd1ne]
          simp
        rw [hdoceq, hslot2, hslot3]
        constructor
        · simp only [Option.isSome_none]
          constructor
          · intro hocc
            exact absurd hocc (not_occursIn_three hmk2 hsep3h hsep3l hcl1b h2no3 hcl3b)
          · intro hh; cases hh
        · simp only [Option.isSome_some]
          exact ⟨fun _ => trivial, fun _ => occursIn_mid h3in3⟩
    · -- part 2 attempted
      have hslot2 : assemblySlot payload keys 2 = some (ct2, k2) := by
        simp [assemblySlot, hk2, hct2]
      obtain ⟨-, hcl2b, hcl2c⟩ := hclean 2 ct2 k2 d2 hslot2 hdec2
      have hs2d : s2 = d1 ++ sepBytes 2 ++ d2 := by
        rw [hs2, hs1d, List.isEmpty_eq_false.mpr hd1ne]
        simp
      have hs2ne : s2 ≠ [] := by
        rw [hs2d]
        intro hh
        exact hd1ne (List.append_eq_nil.mp (List.append_eq_nil.mp hh).1).1
      rcases descStep_inv hstep3 with ⟨hcase3, hs3⟩ | ⟨k3, ct3, d3, hk3, hct3, hdec3, hs3⟩
      · -- doc = d1 ++ sep2 ++ d2
        have hslot3 : assemblySlot payload keys 3 = none := by
          rcases hcase3 with h | h
          · simp [assemblySlot, h]
          · cases hk : keys.key3 <;> simp [assemblySlot, h, hk]
        have hdoceq : doc = d1 ++ sepBytes 2 ++ d2 := by rw [← hs3doc, hs3, hs2d]
        rw [hdoceq, hslot2, hslot3]
        constructor
        · simp only [Option.isSome_some]
          exact ⟨fun _ => trivial, fun _ => occursIn_mid h2in2⟩
        · simp only [Option.isSome_none]
          constructor
          · intro hocc
            exact absurd hocc (not_occursIn_three hmk3 hsep2h hsep2l hcl1c h3no2 hcl2c)
          · intro hh; cases hh
      · -- doc = (d1 ++ sep2 ++ d2) ++ sep3 ++ d3
        have hslot3 : assemblySlot payload keys 3 = some (ct3, k3) := by
          simp [assemblySlot, hk3, hct3]
        obtain ⟨-, hcl3b, hcl3c⟩ := hclean 3 ct3 k3 d3 hslot3 hdec3
        have hdoceq : doc = (d1 ++ sepBytes 2 ++ d2) ++ sepBytes 3 ++ d3 := by
          rw [← hs3doc, hs3, List.isEmpty_eq_false.mpr hs2ne, hs2d]
          simp
        rw [hdoceq, hslot2, hslot3]
        constructor
        · simp only [Option.isSome_some]
          exact ⟨fun _ => trivial, fun _ =>
            occursIn_append_left _ (occursIn_append_left _ (occursIn_mid h2in2))⟩
        · simp only [Option.isSome_some]
          exact ⟨fun _ => trivial, fun _ => occursIn_mid h3in3⟩

/-- C3 counterexample: when the payload lacks part 1 but carries part 2 and
`key2` is present, assembly succeeds and includes part 2's decoded text as
the whole document, yet no PART 2 separator marker appears (the separator is
only inserted when the document is already nonempty), so the marker is not
an exact signal of inclusion. -/
theorem fetch_description_marker_iff_counterexample :
    fetch_description
      ⟨none,
        some (hexEncode (aesCbcEncrypt
          [48, 49, 50, 51, 52, 53, 54, 55, 56, 57, 97, 98, 99, 100, 101, 102] [104, 105])),
        none⟩
      ⟨[48, 49, 50, 51, 52, 53, 54, 55, 56, 57, 97, 98, 99, 100, 101, 102],
        some [48, 49, 50, 51, 52, 53, 54, 55, 56, 57, 97, 98, 99, 100, 101, 102], none⟩ =
      .ok [104, 105] ∧
    (assemblySlot
      ⟨none,
        some (hexEncode (aesCbcEncrypt
          [48, 49, 50, 51, 52, 53, 54, 55, 56, 57, 97, 98, 99, 100, 101, 102] [104, 105])),
        none⟩
      ⟨[48, 49, 50, 51, 52, 53, 54, 55, 56, 57, 97, 98, 99, 100, 101, 102],
        some [48, 49, 50, 51, 52, 53, 54, 55, 56, 57, 97, 98, 99, 100, 101, 102], none⟩
      2).isSome = true ∧
    ¬ occursIn part2Marker [104, 105] := by
  refine ⟨?_, rfl, not_occursIn_of_containsSeq_false (by decide)⟩
  have hd2 : decrypt_aes_cbc
      (hexEncode (aesCbcEncrypt
        [48, 49, 50, 51, 52, 53, 54, 55, 56, 57, 97, 98, 99, 100, 101, 102] [104, 105]))
      [48, 49, 50, 51, 52, 53, 54, 55, 56, 57, 97, 98, 99, 100, 101, 102] =
      .ok [104, 105] :=
    decrypt_aes_cbc_roundtrip_core _ _ (by decide) (by decide) (by decide) (by decide)
  simp [fetch_description, descStep, hd2, except_bind_ok]

/-- Witness for C3 (amended): a one-part document (only part 1 present)
satisfies all hypotheses, and both markers are reported absent together with
both slots. -/
theorem fetch_description_marker_iff_witness :
    (occursIn part2Marker [104, 105] ↔
      (assemblySlot
        ⟨some (hexEncode (aesCbcEncrypt
          [48, 49, 50, 51, 52, 53, 54, 55, 56, 57, 97, 98, 99, 100, 101, 102] [104, 105])),
          none, none⟩
        ⟨[48, 49, 50, 51, 52, 53, 54, 55, 56, 57, 97, 98, 99, 100, 101, 102],
          none, none⟩ 2).isSome = true) ∧
    (occursIn part3Marker [104, 105] ↔
      (assemblySlot
        ⟨some (hexEncode (aesCbcEncrypt
          [48, 49, 50, 51, 52, 53, 54, 55, 56, 57, 97, 98, 99, 100, 101, 102] [104, 105])),
          none, none⟩
        ⟨[48, 49, 50, 51, 52, 53, 54, 55, 56, 57, 97, 98, 99, 100, 101, 102],
          none, none⟩ 3).isSome = true) := by
  have hd1 : decrypt_aes_cbc
      (hexEncode (aesCbcEncrypt
        [48, 49, 50, 51, 52, 53, 54, 55, 56, 57, 97, 98, 99, 100, 101, 102] [104, 105]))
      [48, 49, 50, 51, 52, 53, 54, 55, 56, 57, 97, 98, 99, 100, 101, 102] =
      .ok [104, 105] :=
    decrypt_aes_cbc_roundtrip_core _ _ (by decide) (by decide) (by decide) (by decide)
  refine fetch_description_marker_iff _ _ [104, 105] ?_ rfl ?_
  · simp [fetch_description, descStep, hd1, except_bind_ok]
  · intro m ct k t hs hd
    rcases m with _ | _ | _ | _ | mm
    · simp [assemblySlot] at hs
    · simp only [assemblySlot, Option.map_some'] at hs
      cases Option.some.inj hs
      obtain rfl : [104, 105] = t := Except.ok.inj (hd1.symm.trans hd)
      exact ⟨fun _ => by simp, not_occursIn_of_containsSeq_false (by decide),
        not_occursIn_of_containsSeq_false (by decide)⟩
    · simp [assemblySlot] at hs
    · simp [assemblySlot] at hs
    · simp [assemblySlot] at hs

/-! ## Claim C9: helper lemmas on the regex embedding -/

theorem stripLit_eq : ∀ (l s r : List Nat), stripLit l s = some r ↔ s = l ++ r := by
  intro l
  induction l with
  | nil => intro s r; simp [stripLit]
  | cons c l ih =>
    intro s r
    cases s with
    | nil => simp [stripLit]
    | cons b t =>
      by_cases hcb : c = b
      · subst hcb
        simp only [stripLit, if_pos rfl, List.cons_append, List.cons.injEq, true_and]
        exact ih t r
      · rw [show stripLit (c :: l) (b :: t) = none from by simp [stripLit, hcb]]
        constructor
        · intro h; cases h
        · intro h
          injection h with h1 _
          exact absurd h1.symm hcb

theorem matchPat_none_head {b : Nat} (t : List Nat) (h : b ≠ 60) :
    matchPat (b :: t) = none := by
  have h1 : stripLit litPre (b :: t) = none := by
    show (if 60 = b then stripLit [112, 114, 101, 62] t else none) = none
    rw [if_neg (fun hh => h hh.symm)]
  simp [matchPat, h1]

theorem matchPat_none_head2 {b : Nat} (t : List Nat) (h : b ≠ 112) :
    matchPat (60 :: b :: t) = none := by
  have h1 : stripLit litPre (60 :: b :: t) = none := by
    show (if 112 = b then stripLit [114, 101, 62] t else none) = none
    rw [if_neg (fun hh => h hh.symm)]
  simp [matchPat, h1]

theorem matchPat_drops_of_ne60 : ∀ (x : List Nat), (∀ c ∈ x, c ≠ 60) →
    ∀ (k : List Nat) (j : Nat), j < x.length → matchPat (x.drop j ++ k) = none := by
  intro x
  induction x with
  | nil => intro _ k j hj; simp at hj
  | cons a t ih =>
    intro hx k j hj
    cases j with
    | zero =>
      simp only [List.drop_zero, List.cons_append]
      exact matchPat_none_head _ (hx a (by simp))
    | succ j =>
      rw [List.drop_succ_cons]
      refine ih (fun c hc => hx c (by simp [hc])) k j ?_
      simp only [List.length_cons] at hj
      omega

theorem matchPat_drops_append {x y k : List Nat}
    (hx : ∀ j, j < x.length → matchPat (x.drop j ++ (y ++ k)) = none)
    (hy : ∀ j, j < y.length → matchPat (y.drop j ++ k) = none) :
    ∀ j, j < (x ++ y).length → matchPat ((x ++ y).drop j ++ k) = none := by
  intro j hj
  rcases Nat.lt_or_ge j x.length with hlt | hge
  · rw [List.drop_append_of_le_length (Nat.le_of_lt hlt), List.append_assoc]
    exact hx j hlt
  · obtain ⟨i, rfl⟩ := Nat.exists_eq_add_of_le hge
    rw [List.drop_append]
    refine hy i ?_
    rw [List.length_append] at hj
    omega

theorem matchPat_drops_litB (k : List Nat) :
    ∀ j, j < litB.length → matchPat (litB.drop j ++ k) = none := by
  intro j hj
  match j with
  | 0 => exact matchPat_none_head2 _ (by decide)
  | 1 => exact matchPat_none_head _ (by decide)
  | 2 => exact matchPat_none_head _ (by decide)
  | n + 3 => exact absurd hj (by simp [litB])

theorem matchPat_drops_litCloseB (k : List Nat) :
    ∀ j, j < litCloseB.length → matchPat (litCloseB.drop j ++ k) = none := by
  intro j hj
  match j with
  | 0 => exact matchPat_none_head2 _ (by decide)
  | 1 => exact matchPat_none_head _ (by decide)
  | 2 => exact matchPat_none_head _ (by decide)
  | 3 => exact matchPat_none_head _ (by decide)
  | n + 4 => exact absurd hj (by simp [litCloseB])

theorem matchPat_drops_litClosePre (k : List Nat) :
    ∀ j, j < litClosePre.length → matchPat (litClosePre.drop j ++ k) = none := by
  intro j hj
  match j with
  | 0 => exact matchPat_none_head2 _ (by decide)
  | 1 => exact matchPat_none_head _ (by decide)
  | 2 => exact matchPat_none_head _ (by decide)
  | 3 => exact matchPat_none_head _ (by decide)
  | 4 => exact matchPat_none_head _ (by decide)
  | 5 => exact matchPat_none_head _ (by decide)
  | n + 6 => exact absurd hj (by simp [litClosePre])

theorem wsUnitRest_spec : ∀ {s r : List Nat}, wsUnitRest s = some r →
    ∃ u, s = u ++ r ∧ ∀ c ∈ u, c ≠ 60 := by
  intro s r h
  cases s with
  | nil => exact absurd h (by simp [wsUnitRest])
  | cons a t =>
    simp only [wsUnitRest] at h
    split at h
    next h6 =>
      cases h
      refine ⟨[a], rfl, ?_⟩
      intro c hc
      simp only [List.mem_cons, List.not_mem_nil, or_false] at hc
      omega
    next h6 =>
      split at h
      next h194 =>
        split at h
        next b r2 =>
          split at h
          next hb =>
            cases h
            refine ⟨[a, b], rfl, ?_⟩
            intro c hc
            simp only [List.mem_cons, List.not_mem_nil, or_false] at hc
            omega
          next hb => exact absurd h (by simp)
        next => exact absurd h (by simp)
      next h194 =>
        split at h
        next h225 =>
          split at h
          next b c2 r2 =>
            split at h
            next hbc =>
              cases h
              refine ⟨[a, b, c2], rfl, ?_⟩
              intro c hc
              simp only [List.mem_cons, List.not_mem_nil, or_false] at hc
              omega
            next => exact absurd h (by simp)
          next => exact absurd h (by simp)
        next h225 =>
          split at h
          next h226 =>
            split at h
            next b c2 r2 =>
              split at h
              next hbc =>
                cases h
                refine ⟨[a, b, c2], rfl, ?_⟩
                intro c hc
                simp only [List.mem_cons, List.not_mem_nil, or_false] at hc
                omega
              next hbc =>
                split at h
                next hbc2 =>
                  cases h
                  refine ⟨[a, b, c2], rfl, ?_⟩
                  intro c hc
                  simp only [List.mem_cons, List.not_mem_nil, or_false] at hc
                  omega
                next => exact absurd h (by simp)
            next => exact absurd h (by simp)
          next h226 =>
            split at h
            next h227 =>
              split at h
              next b c2 r2 =>
                split at h
                next hbc =>
                  cases h
                  refine ⟨[a, b, c2], rfl, ?_⟩
                  intro c hc
                  simp only [List.mem_cons, List.not_mem_nil, or_false] at hc
                  omega
                next => exact absurd h (by simp)
              next => exact absurd h (by simp)
            next h227 => exact absurd h (by simp)

theorem skipWsGo_spec : ∀ (fuel : Nat) (s : List Nat),
    ∃ w, s = w ++ skipWsGo fuel s ∧ ∀ c ∈ w, c ≠ 60 := by
  intro fuel
  induction fuel with
  | zero => intro s; exact ⟨[], rfl, by simp⟩
  | succ fuel ih =>
    intro s
    cases hu : wsUnitRest s with
    | none =>
      refine ⟨[], ?_, by simp⟩
      rw [show skipWsGo (fuel + 1) s = s from by simp [skipWsGo, hu]]
      rfl
    | some r =>
      obtain ⟨u, hsu, hu60⟩ := wsUnitRest_spec hu
      obtain ⟨w, hrw, hw60⟩ := ih r
      refine ⟨u ++ w, ?_, ?_⟩
      · rw [show skipWsGo (fuel + 1) s = skipWsGo fuel r from by simp [skipWsGo, hu],
          List.append_assoc, ← hrw]
        exact hsu
      · intro c hc
        rcases List.mem_append.mp hc with hcm | hcm
        · exact hu60 c hcm
        · exact hw60 c hcm

theorem skipWs_spec (s : List Nat) :
    ∃ w, s = w ++ skipWs s ∧ ∀ c ∈ w, c ≠ 60 :=
  skipWsGo_spec s.length s

theorem matchPat_some_shape {s cap rest : List Nat} (h : matchPat s = some (cap, rest)) :
    ∃ w1 w2,
      s = litPre ++ (w1 ++ (litB ++ (cap ++ (litCloseB ++ (w2 ++ (litClosePre ++ rest)))))) ∧
      (∀ c ∈ w1, c ≠ 60) ∧ (∀ c ∈ cap, c ≠ 60) ∧ cap ≠ [] ∧ (∀ c ∈ w2, c ≠ 60) := by
  simp only [matchPat, Option.bind_eq_bind] at h
  cases h1 : stripLit litPre s with
  | none => rw [h1, Option.none_bind] at h; cases h
  | some s1 =>
  rw [h1, Option.some_bind] at h
  cases h2 : stripLit litB (skipWs s1) with
  | none => rw [h2, Option.none_bind] at h; cases h
  | some s3 =>
  rw [h2, Option.some_bind] at h
  cases hemp : (s3.takeWhile fun b => !(b == 60)).isEmpty with
  | true => rw [hemp] at h; simp at h
  | false =>
  rw [hemp] at h
  simp only [Bool.false_eq_true, if_false] at h
  cases h3 : stripLit litCloseB (s3.drop (s3.takeWhile fun b => !(b == 60)).length) with
  | none => rw [h3, Option.none_bind] at h; cases h
  | some s5 =>
  rw [h3, Option.some_bind] at h
  cases h4 : stripLit litClosePre (skipWs s5) with
  | none => rw [h4, Option.none_bind] at h; cases h
  | some s7 =>
  rw [h4, Option.some_bind] at h
  obtain ⟨hcap_eq, hrest_eq⟩ := Prod.mk.injEq _ _ _ _ ▸ Option.some.inj h
  obtain ⟨w1, hw1eq, hw1⟩ := skipWs_spec s1
  obtain ⟨w2, hw2eq, hw2⟩ := skipWs_spec s5
  have hdrop : s3.drop (s3.takeWhile fun b => !(b == 60)).length =
      s3.dropWhile fun b => !(b == 60) := by
    calc s3.drop (s3.takeWhile fun b => !(b == 60)).length
        = ((s3.takeWhile fun b => !(b == 60)) ++ (s3.dropWhile fun b => !(b == 60))).drop
            (s3.takeWhile fun b => !(b == 60)).length := by
          rw [List.takeWhile_append_dropWhile]
      _ = s3.dropWhile fun b => !(b == 60) := List.drop_left _ _
  refine ⟨w1, w2, ?_, hw1, ?_, ?_, hw2⟩
  · rw [(stripLit_eq _ _ _).mp h1, hw1eq, (stripLit_eq _ _ _).mp h2]
    have hd2 : (s3.dropWhile fun b => !(b == 60)) =
        litCloseB ++ (w2 ++ (litClosePre ++ rest)) := by
      rw [← hdrop, (stripLit_eq _ _ _).mp h3, hw2eq, (stripLit_eq _ _ _).mp h4, hrest_eq]
    have hs3 : s3 = (s3.takeWhile fun b => !(b == 60)) ++
        (litCloseB ++ (w2 ++ (litClosePre ++ rest))) := by
      conv_lhs => rw [← List.takeWhile_append_dropWhile (fun b => !(b == 60)) s3]
      rw [hd2]
    rw [hcap_eq] at hs3
    rw [hs3]
  · intro c hc
    rw [← hcap_eq] at hc
    have := List.mem_takeWhile_imp hc
    simp only [Bool.not_eq_true', beq_eq_false_iff_ne, ne_eq] at this
    exact this
  · rw [← hcap_eq]
    intro hnil
    rw [hnil] at hemp
    simp at hemp

theorem matchPat_decomp {s cap rest : List Nat} (h : matchPat s = some (cap, rest)) :
    ∃ pre, s = pre ++ rest ∧ 0 < pre.length ∧
      ∀ i, 0 < i → i < pre.length → matchPat (s.drop i) = none := by
  obtain ⟨w1, w2, hs, hw1, hcap, hcapne, hw2⟩ := matchPat_some_shape h
  refine ⟨60 :: ([112, 114, 101, 62] ++
      (w1 ++ (litB ++ (cap ++ (litCloseB ++ (w2 ++ litClosePre)))))), ?_, by simp, ?_⟩
  · rw [hs]
    simp [litPre, List.append_assoc]
  · have hG : ∀ j, j < ([112, 114, 101, 62] ++
        (w1 ++ (litB ++ (cap ++ (litCloseB ++ (w2 ++ litClosePre)))))).length →
        matchPat (([112, 114, 101, 62] ++
          (w1 ++ (litB ++ (cap ++ (litCloseB ++ (w2 ++ litClosePre)))))).drop j ++ rest) =
          none := by
      refine matchPat_drops_append
        (matchPat_drops_of_ne60 [112, 114, 101, 62] (by decide) _) ?_
      refine matchPat_drops_append (matchPat_drops_of_ne60 w1 hw1 _) ?_
      refine matchPat_drops_append (matchPat_drops_litB _) ?_
      refine matchPat_drops_append (matchPat_drops_of_ne60 cap hcap _) ?_
      refine matchPat_drops_append (matchPat_drops_litCloseB _) ?_
      refine matchPat_drops_append (matchPat_drops_of_ne60 w2 hw2 _) ?_
      exact matchPat_drops_litClosePre rest
    intro i h0 hi
    cases i with
    | zero => omega
    | succ j =>
      have hs2 : s = 60 :: (([112, 114, 101, 62] ++
          (w1 ++ (litB ++ (cap ++ (litCloseB ++ (w2 ++ litClosePre)))))) ++ rest) := by
        rw [hs]
        simp [litPre, List.append_assoc]
      rw [hs2, List.drop_succ_cons]
      have hj : j < ([112, 114, 101, 62] ++
          (w1 ++ (litB ++ (cap ++ (litCloseB ++ (w2 ++ litClosePre)))))).length := by
        simp only [List.length_cons] at hi
        omega
      rw [List.drop_append_of_le_length (Nat.le_of_lt hj)]
      exact hG j hj

theorem scanCapsGo_eq_spec : ∀ (n : Nat) (s : List Nat), s.length ≤ n →
    scanCapsGo n s =
      (List.range s.length).filterMap (fun i => (matchPat (s.drop i)).map Prod.fst) := by
  intro n
  induction n with
  | zero =>
    intro s hs
    rw [List.length_eq_zero.mp (Nat.le_zero.mp hs)]
    rfl
  | succ n ih =>
    intro s hs
    cases s with
    | nil => rfl
    | cons b t =>
      cases hm : matchPat (b :: t) with
      | none =>
        have hscan : scanCapsGo (n + 1) (b :: t) = scanCapsGo n t := by
          simp [scanCapsGo, hm]
        rw [hscan, ih t (Nat.le_of_succ_le_succ hs)]
        rw [show (b :: t).length = t.length + 1 from rfl, List.range_succ_eq_map,
          List.filterMap_cons_none (by simp [hm]), List.filterMap_map]
        have hfun : ((fun i => (matchPat ((b :: t).drop i)).map Prod.fst) ∘ Nat.succ) =
            (fun i => (matchPat (t.drop i)).map Prod.fst) :=
          funext fun i => rfl
        rw [hfun]
      | some pr =>
        obtain ⟨cap, rest⟩ := pr
        have hscan : scanCapsGo (n + 1) (b :: t) = cap :: scanCapsGo n rest := by
          simp [scanCapsGo, hm]
        obtain ⟨pre, hsp, hpre_pos, hint⟩ := matchPat_decomp hm
        have hlen : (b :: t).length = pre.length + rest.length := by
          rw [hsp, List.length_append]
        have hrest_le : rest.length ≤ n := by
          have := hs
          rw [hlen] at this
          omega
        rw [hscan, ih rest hrest_le, hlen, List.range_add, List.filterMap_append,
          List.filterMap_map]
        have hsecond : ((fun i => (matchPat ((b :: t).drop i)).map Prod.fst) ∘
            (fun x => pre.length + x)) =
            (fun i => (matchPat (rest.drop i)).map Prod.fst) := by
          funext i
          show (matchPat ((b :: t).drop (pre.length + i))).map Prod.fst = _
          rw [hsp, List.drop_append]
        have hfirst : List.filterMap (fun i => (matchPat ((b :: t).drop i)).map Prod.fst)
            (List.range pre.length) = [cap] := by
          obtain ⟨m, hm'⟩ : ∃ m, pre.length = m + 1 := ⟨pre.length - 1, by omega⟩
          have hf0 : (fun i => (matchPat ((b :: t).drop i)).map Prod.fst) 0 = some cap := by
            simp [hm]
          have hstep : List.filterMap (fun i => (matchPat ((b :: t).drop i)).map Prod.fst)
              (0 :: List.map Nat.succ (List.range m)) =
              cap :: List.filterMap (fun i => (matchPat ((b :: t).drop i)).map Prod.fst)
                (List.map Nat.succ (List.range m)) := List.filterMap_cons_some hf0
          rw [hm', List.range_succ_eq_map, hstep, List.filterMap_map]
          have hrest_nil : List.filterMap ((fun i => (matchPat ((b :: t).drop i)).map
              Prod.fst) ∘ Nat.succ) (List.range m) = [] := by
            rw [List.filterMap_eq_nil_iff]
            intro i hi
            show (matchPat ((b :: t).drop (Nat.succ i))).map Prod.fst = none
            rw [hint (i + 1) (Nat.succ_pos i)
              (by rw [hm']; exact Nat.succ_lt_succ (List.mem_range.mp hi))]
            rfl
          rw [hrest_nil]
        rw [hfirst, hsecond]
        rfl

/-- C9: `extract_expected_answer` returns exactly the capture of the LAST
occurrence of the pattern `<pre>\s*<b>([^<]+)</b>\s*</pre>` in the text
(scanning every starting position), trimmed of surrounding whitespace, and
`none` when the pattern never occurs: the source's non-overlapping
`captures_iter` scan agrees with the spec's "last occurrence" reading
because no match can begin strictly inside another match. -/
theorem extract_expected_answer_eq_last_occurrence (html : List Nat) :
    extract_expected_answer html = (specLastOccurrenceCap html).map trimBytes := by
  unfold extract_expected_answer specLastOccurrenceCap
  rw [scanCapsGo_eq_spec html.length html le_rfl]

end EcCli
